import Mathlib

/-!
Verification development for the cascade engine of `gaphor/core/styling/__init__.py`:
compiled stylesheets, cascade merge (`merge_styles`), variable resolution
(`resolve_variables`), font-size scaling, opacity compositing and `match`.

The Python code is embedded shallowly:
* `Style` values (dict entries) become an inductive `Value`; Python dicts become
  association lists with first-match lookup (Python dicts never hold duplicate keys;
  folds that model `dict.update` keep "later write wins" semantics).
* Python numbers (int/float) are modelled as exact numerator/denominator pairs
  (`Number`).  The engine never normalizes, divides or compares numbers for
  equality -- it only multiplies them, tests truthiness and compares with 0 --
  so this representation is exact.
* Operations that can raise in Python (`resolved_style["font-size"]` on a missing
  key, arithmetic on ill-typed values) are embedded as `Option`-returning
  functions where `none` marks the raised exception.
-/

/-- The `StyleNode` protocol (styling/__init__.py lines 72-90): the capability
surface a styleable node exposes.  `parent()`/`children()` tree navigation is
consumed only by opaque selector predicates, never by the cascade engine itself,
so the embedding keeps only the directly queried data. -/
structure StyleNode where
  name : String
  pseudo : Option String
  dark_mode : Option Bool
  state : List String
  attributes : List (String × String)
deriving DecidableEq

/-- `PseudoStyleNode` (lines 93-113): delegates every capability to the wrapped
node and overrides `pseudo` with the given string (the source spells the
parameter `psuedo`). -/
def PseudoStyleNode (node : StyleNode) (psuedo : String) : StyleNode :=
  { node with pseudo := some psuedo }

/-- Exact rational numbers as numerator/denominator pairs.  Python int/float
values are written with positive denominators; the engine only multiplies,
tests truthiness and compares with zero, so no normalization is needed and
representation equality is value equality for the values the engine builds. -/
structure Number where
  num : Int
  den : Nat
deriving DecidableEq

/-- Multiplication of numbers (`abs_font_size * ratio`, `alpha * opacity`). -/
def Number.mul (a b : Number) : Number := ⟨a.num * b.num, a.den * b.den⟩

/-- Python truthiness of a number: `0` and `0.0` are falsy. -/
def Number.nonzero (a : Number) : Bool := a.num != 0

/-- Python `x > 0.0` for a number written with a positive denominator. -/
def Number.isPos (a : Number) : Bool := 0 < a.num

/-- The tagged value domain of `Style` entries: numbers, 4-channel colors,
strings/keywords, numeric sequences, variable references (`Var`), nested
pseudo-element sub-styles, and the two opaque bookkeeping back-references
(`-gaphor-style-node` holds the node; the compiled-style-sheet back-reference
is opaque and never compared, so it carries no payload). -/
inductive Value where
  | num (q : Number)
  | color (r g b a : Number)
  | str (s : String)
  | seq (l : List Number)
  | var (name : String)
  | sub (entries : List (String × Value))
  | nodeRef (node : StyleNode)
  | sheetRef

mutual

/-- Boolean structural equality on values (needed because `deriving DecidableEq`
does not support the nested occurrence in `Value.sub`). -/
def Value.deq : Value → Value → Bool
  | .num a, .num b => a == b
  | .color r g b a, .color r' g' b' a' => r == r' && g == g' && b == b' && a == a'
  | .str s, .str t => s == t
  | .seq l, .seq m => l == m
  | .var n, .var m => n == m
  | .sub d, .sub e => Value.deqList d e
  | .nodeRef n, .nodeRef m => n == m
  | .sheetRef, .sheetRef => true
  | _, _ => false

/-- Elementwise `Value.deq` on association lists. -/
def Value.deqList : List (String × Value) → List (String × Value) → Bool
  | [], [] => true
  | (k, v) :: r, (k', v') :: r' => k == k' && Value.deq v v' && Value.deqList r r'
  | _, _ => false

end

mutual

theorem Value.deq_iff : (a b : Value) → (Value.deq a b = true ↔ a = b)
  | .num a, .num b => by simp [Value.deq]
  | .color r g b a, .color r' g' b' a' => by simp [Value.deq, and_assoc]
  | .str s, .str t => by simp [Value.deq]
  | .seq l, .seq m => by simp [Value.deq]
  | .var n, .var m => by simp [Value.deq]
  | .sub d, .sub e => by simpa [Value.deq] using Value.deqList_iff d e
  | .nodeRef n, .nodeRef m => by simp [Value.deq]
  | .sheetRef, .sheetRef => by simp [Value.deq]
  | .num _, .color _ _ _ _ => by simp [Value.deq]
  | .num _, .str _ => by simp [Value.deq]
  | .num _, .seq _ => by simp [Value.deq]
  | .num _, .var _ => by simp [Value.deq]
  | .num _, .sub _ => by simp [Value.deq]
  | .num _, .nodeRef _ => by simp [Value.deq]
  | .num _, .sheetRef => by simp [Value.deq]
  | .color _ _ _ _, .num _ => by simp [Value.deq]
  | .color _ _ _ _, .str _ => by simp [Value.deq]
  | .color _ _ _ _, .seq _ => by simp [Value.deq]
  | .color _ _ _ _, .var _ => by simp [Value.deq]
  | .color _ _ _ _, .sub _ => by simp [Value.deq]
  | .color _ _ _ _, .nodeRef _ => by simp [Value.deq]
  | .color _ _ _ _, .sheetRef => by simp [Value.deq]
  | .str _, .num _ => by simp [Value.deq]
  | .str _, .color _ _ _ _ => by simp [Value.deq]
  | .str _, .seq _ => by simp [Value.deq]
  | .str _, .var _ => by simp [Value.deq]
  | .str _, .sub _ => by simp [Value.deq]
  | .str _, .nodeRef _ => by simp [Value.deq]
  | .str _, .sheetRef => by simp [Value.deq]
  | .seq _, .num _ => by simp [Value.deq]
  | .seq _, .color _ _ _ _ => by simp [Value.deq]
  | .seq _, .str _ => by simp [Value.deq]
  | .seq _, .var _ => by simp [Value.deq]
  | .seq _, .sub _ => by simp [Value.deq]
  | .seq _, .nodeRef _ => by simp [Value.deq]
  | .seq _, .sheetRef => by simp [Value.deq]
  | .var _, .num _ => by simp [Value.deq]
  | .var _, .color _ _ _ _ => by simp [Value.deq]
  | .var _, .str _ => by simp [Value.deq]
  | .var _, .seq _ => by simp [Value.deq]
  | .var _, .sub _ => by simp [Value.deq]
  | .var _, .nodeRef _ => by simp [Value.deq]
  | .var _, .sheetRef => by simp [Value.deq]
  | .sub _, .num _ => by simp [Value.deq]
  | .sub _, .color _ _ _ _ => by simp [Value.deq]
  | .sub _, .str _ => by simp [Value.deq]
  | .sub _, .seq _ => by simp [Value.deq]
  | .sub _, .var _ => by simp [Value.deq]
  | .sub _, .nodeRef _ => by simp [Value.deq]
  | .sub _, .sheetRef => by simp [Value.deq]
  | .nodeRef _, .num _ => by simp [Value.deq]
  | .nodeRef _, .color _ _ _ _ => by simp [Value.deq]
  | .nodeRef _, .str _ => by simp [Value.deq]
  | .nodeRef _, .seq _ => by simp [Value.deq]
  | .nodeRef _, .var _ => by simp [Value.deq]
  | .nodeRef _, .sub _ => by simp [Value.deq]
  | .nodeRef _, .sheetRef => by simp [Value.deq]
  | .sheetRef, .num _ => by simp [Value.deq]
  | .sheetRef, .color _ _ _ _ => by simp [Value.deq]
  | .sheetRef, .str _ => by simp [Value.deq]
  | .sheetRef, .seq _ => by simp [Value.deq]
  | .sheetRef, .var _ => by simp [Value.deq]
  | .sheetRef, .sub _ => by simp [Value.deq]
  | .sheetRef, .nodeRef _ => by simp [Value.deq]

theorem Value.deqList_iff : (d e : List (String × Value)) → (Value.deqList d e = true ↔ d = e)
  | [], [] => by simp [Value.deqList]
  | (_, _) :: _, [] => by simp [Value.deqList]
  | [], (_, _) :: _ => by simp [Value.deqList]
  | (k, v) :: r, (k', v') :: r' => by
    simp [Value.deqList, Value.deq_iff v v', Value.deqList_iff r r', and_assoc,
      Prod.ext_iff]

end

instance : DecidableEq Value := fun a b =>
  decidable_of_iff (Value.deq a b = true) (Value.deq_iff a b)

/-- A `Style` (the `Style` TypedDict): a mapping from property name to value.
Python dicts are embedded as association lists without duplicate keys;
`getp` is `dict.get` / `in` (first match = only match on duplicate-free lists). -/
abbrev Style := List (String × Value)

/-- `dict.get p` / `p in dict` / `dict[p]` on a style. -/
def getp : Style → String → Option Value
  | [], _ => none
  | (k, v) :: rest, p => if k = p then some v else getp rest p

/-- `dict[k] = v`: replace the binding for `k` in place, or append it. -/
def updKey : Style → String → Value → Style
  | [], k, v => [(k, v)]
  | (k', v') :: rest, k, v =>
    if k' = k then (k, v) :: rest else (k', v') :: updKey rest k v

/-- `style.update(s)` (line 123): fold every entry of `s` into `style`,
later writes winning. -/
def dictUpdate (style s : Style) : Style :=
  s.foldl (fun acc kv => updKey acc kv.1 kv.2) style

/-- The accumulated `style` of the `for s in styles: style.update(s)` loop
in `merge_styles` (lines 117-123). -/
def mergeFold (styles : List Style) : Style :=
  styles.foldl dictUpdate []

/-- The `abs_font_size` tracking of the same loop (lines 118-122): the last
truthy numeric `font-size` seen while scanning the layers in ascending
priority order (`if font_size and isinstance(font_size, number)`). -/
def scanAbsStep (acc : Option Number) (s : Style) : Option Number :=
  match getp s "font-size" with
  | some (.num q) => if q.nonzero then some q else acc
  | _ => acc

def scanAbs (styles : List Style) : Option Number :=
  styles.foldl scanAbsStep none

/-- Python truthiness of a style value: empty string / zero number / empty
sequence / empty dict are falsy; `Var` (a one-field NamedTuple), colors
(4-tuples) and the opaque back-references are always truthy. -/
def Value.truthy : Value → Bool
  | .num q => q.nonzero
  | .color _ _ _ _ => true
  | .str s => s ≠ ""
  | .seq l => !l.isEmpty
  | .var _ => true
  | .sub d => !d.isEmpty
  | .nodeRef _ => true
  | .sheetRef => true

/-- `isinstance(v, Var)`. -/
def Value.isVar : Value → Bool
  | .var _ => true
  | _ => false

def Value.isNum : Value → Bool
  | .num _ => true
  | _ => false

def Value.isColor : Value → Bool
  | .color _ _ _ _ => true
  | _ => false

def Value.isStr : Value → Bool
  | .str _ => true
  | _ => false

def Value.isSeq : Value → Bool
  | .seq _ => true
  | _ => false

def Value.isSub : Value → Bool
  | .sub _ => true
  | _ => false

/-- `p.startswith("--")`: custom-property names. -/
def isCustomProp (p : String) : Bool :=
  match p.data with
  | '-' :: '-' :: _ => true
  | _ => false

/-- The three color-valued properties of the opacity pass (line 132). -/
def colorProp (p : String) : Bool :=
  p = "color" || p = "background-color" || p = "text-color"

/-- Properties whose declared value domain is `Number` in the `Style`
TypedDict (lines 38-69). -/
def numberProp (p : String) : Bool :=
  p = "border-radius" || p = "line-style" || p = "line-width" || p = "min-width" ||
    p = "min-height" || p = "opacity" || p = "vertical-spacing"

/-- Properties whose declared value domain is a string or enumerated keyword
in the `Style` TypedDict. -/
def stringProp (p : String) : Bool :=
  p = "content" || p = "font-family" || p = "font-style" || p = "font-weight" ||
    p = "justify-content" || p = "text-align" || p = "text-decoration" ||
    p = "vertical-align" || p = "white-space"

/-- Properties whose declared value domain is a numeric sequence
(`dash-style`, `padding`). -/
def seqProp (p : String) : Bool :=
  p = "dash-style" || p = "padding"

/-- The non-custom, non-reserved properties of the `Style` TypedDict. -/
def knownProp (p : String) : Bool :=
  colorProp p || numberProp p || stringProp p || seqProp p || p = "font-size"

/-- A concrete (non-`Var`) value fits a property's declared value domain
(the `Style` TypedDict of styling/__init__.py, lines 38-69). -/
def fitsConcrete (p : String) (v : Value) : Bool :=
  if colorProp p then v.isColor
  else if numberProp p then v.isNum
  else if stringProp p then v.isStr
  else if seqProp p then v.isSeq
  else if p = "font-size" then v.isNum || v.isStr
  else false

/-- Modelled from the spec: the external `declarations` registry
(`gaphor.core.styling.declarations`, not part of the sources) normalizes a
declaration value for a property.  Per the spec's value domain (§3) and
resolution algorithm (§4.3): custom properties (`--` prefix) pass through
unchanged, variable references pass through so the caller can test for them,
any other value is accepted exactly when it fits the property's declared
value domain and rejected (Python `None`, falsy) otherwise. -/
def declarations (property : String) (value : Value) : Option Value :=
  if isCustomProp property then some value
  else if value.isVar then some value
  else if fitsConcrete property value then some value
  else none

/-- Modelled from the spec: `FONT_SIZE_VALUES` (external `declarations`
module) maps the named relative font-size keywords to numeric ratios
(§4.4: "a small/large-style keyword mapped to a numeric ratio").  The exact
ratios are not given by the sources; the claims only use that each keyword
has some fixed ratio. -/
def FONT_SIZE_VALUES : List (String × Number) :=
  [("x-small", ⟨3, 4⟩), ("small", ⟨8, 9⟩), ("medium", ⟨1, 1⟩),
   ("large", ⟨6, 5⟩), ("x-large", ⟨3, 2⟩)]

/-- `resolved_style["font-size"] in FONT_SIZE_VALUES` together with the
`FONT_SIZE_VALUES[...]` lookup: only string keywords are keys. -/
def fontSizeFactorOf (v : Value) : Option Number :=
  match v with
  | .str s => (FONT_SIZE_VALUES.find? fun kv => kv.1 = s).map (·.2)
  | _ => none

/-- What a single layer of the fallback scan of `resolve_variables`
(lines 146-160) yields for property `p` holding the layer value `lv`
(`none` = the loop body neither assigns nor breaks, falling through to the
next layer): a falsy value yields nothing; a non-`Var` truthy value is taken
as is; a `Var` value yields `declarations(p, style[lv.name])` when the name
is bound in the merged style and the result is truthy and concrete. -/
def layerStep (style : Style) (p : String) (lv : Value) : Option Value :=
  if lv.truthy then
    match lv with
    | .var nm =>
      match getp style nm with
      | some w =>
        match declarations p w with
        | some resolved =>
          if resolved.truthy && !resolved.isVar then some resolved else none
        | none => none
      | none => none
    | _ => some lv
  else none

/-- The inner fallback scan of `resolve_variables` (lines 144-160), on the
already-reversed layer list (`for layer in reversed(style_layers)`): the
first layer whose value for `p` yields a result (`layerStep`) breaks the
loop with that result; layers that bind `p` but yield nothing fall through. -/
def scanLayers (style : Style) (p : String) : List Style → Option Value
  | [] => none
  | layer :: rest =>
    match getp layer p with
    | some lv =>
      match layerStep style p lv with
      | some r => some r
      | none => scanLayers style p rest
    | none => scanLayers style p rest

/-- The `for p, v in style.items()` loop body of `resolve_variables`
(lines 142-162): concrete values are copied, `Var` values are replaced by the
fallback-scan result or dropped. -/
def resolveGo (style : Style) (rev_layers : List Style) : Style → Style
  | [] => []
  | (p, v) :: rest =>
    if v.isVar then
      match scanLayers style p rev_layers with
      | some r => (p, r) :: resolveGo style rev_layers rest
      | none => resolveGo style rev_layers rest
    else (p, v) :: resolveGo style rev_layers rest

/-- `resolve_variables(style, style_layers)` (lines 140-163). -/
def resolve_variables (style : Style) (style_layers : List Style) : Style :=
  resolveGo style style_layers.reverse style

/-- The font-size scaling step of `merge_styles` (lines 127-128).
`resolved_style["font-size"]` raises `KeyError` when `abs_font_size` is set
but the resolved style lost `font-size`; the raise is modelled as `none`. -/
def fontScaleStage (abs_font_size : Option Number) (st : Style) : Option Style :=
  match abs_font_size with
  | none => some st
  | some q =>
    match getp st "font-size" with
    | none => none
    | some fs =>
      match fontSizeFactorOf fs with
      | some ratio => some (updKey st "font-size" (.num (q.mul ratio)))
      | none => some st

/-- `color[:3] + (color[3] * opacity,)` (line 135): the rewrite of one color
property once the alpha check passed.  A non-numeric opacity would raise a
`TypeError` in Python (modelled as `none`); compiler-validated styles only
carry numeric opacities. -/
def opacityMulValue (opacity : Value) (r g b a : Number) (st : Style) (prop : String) :
    Option Style :=
  match opacity with
  | .num q => some (updKey st prop (.color r g b (a.mul q)))
  | _ => none

/-- One step of the opacity pass (lines 132-135): `if color and color[3] > 0.0`
followed by the rewrite.  A truthy non-color value would raise in Python
(modelled as `none`); unreachable for compiler-validated styles. -/
def applyOpacity (opacity : Value) (st : Style) (prop : String) : Option Style :=
  match getp st prop with
  | none => some st
  | some v =>
    match v with
    | .color r g b a =>
      if a.isPos then opacityMulValue opacity r g b a st prop
      else some st
    | _ => if v.truthy then none else some st

/-- The opacity compositing pass of `merge_styles` (lines 130-135): when
`"opacity" in resolved_style`, rewrite `color`, `background-color` and
`text-color` in that order. -/
def opacityPass (st : Style) : Option Style :=
  match getp st "opacity" with
  | none => some st
  | some opacity => do
    let s1 ← applyOpacity opacity st "color"
    let s2 ← applyOpacity opacity s1 "background-color"
    applyOpacity opacity s2 "text-color"

/-- `merge_styles(*styles)` (lines 116-137): fold the layers (tracking the
last absolute font-size), resolve variables against the same layer list, then
apply font-size scaling and opacity compositing.  `none` models a raised
exception. -/
def merge_styles (styles : List Style) : Option Style :=
  (fontScaleStage (scanAbs styles) (resolve_variables (mergeFold styles) styles)).bind
    opacityPass

/-- Lexicographic strict comparison of specificity tuples (Python tuple `<`;
a strict prefix is smaller). -/
def specLt : List Nat → List Nat → Bool
  | [], [] => false
  | [], _ :: _ => true
  | _ :: _, [] => false
  | a :: as, b :: bs => if a < b then true else if a = b then specLt as bs else false

/-- A compiled rule as stored in `CompiledStyleSheet.selectors` (line 170):
`(selspec[1], order, declarations, selspec[0])`, i.e. specificity,
declaration-order-index, declaration set and match predicate. -/
structure Rule where
  specificity : List Nat
  order : Nat
  declarations : Style
  pred : StyleNode → Bool

/-- `operator.itemgetter(0, 1)` ordering of rules: lexicographic on
(specificity, declaration-order-index). -/
def ruleLe (x y : Rule) : Prop :=
  (if specLt x.specificity y.specificity then true
   else if x.specificity = y.specificity then decide (x.order ≤ y.order)
   else false) = true

instance : DecidableRel ruleLe := fun x y => by unfold ruleLe; infer_instance

/-- One item of the `compile_style_sheet(*css)` output: either the marker
`selspec == "error"` for a rule that failed to parse, or a (predicate,
specificity) selector spec; each item carries its declaration set. -/
inductive SelSpec where
  | error
  | ok (pred : StyleNode → Bool) (specificity : List Nat)

/-- Modelled from the spec: one entry of the external compiler's output
stream (§2, §4.1) -- the compiler turns the concatenated stylesheet sources
into an ordered sequence of `(selspec, declarations)` pairs, malformed rules
marked `"error"`. -/
structure RawRule where
  selspec : SelSpec
  declarations : Style

/-- The generator inside `CompiledStyleSheet.__init__` (lines 168-173):
enumerate the compiler output (so the order index is the position in the full
concatenated stream, error entries included) and keep the non-error rules. -/
def okRules (compiled : List RawRule) : List Rule :=
  compiled.enum.filterMap fun oe =>
    match oe.2.selspec with
    | .error => none
    | .ok pr sp => some ⟨sp, oe.1, oe.2.declarations, pr⟩

/-- `CompiledStyleSheet` (lines 166-175): the rule list sorted (stably)
ascending by (specificity, declaration-order-index). -/
structure CompiledStyleSheet where
  selectors : List Rule

/-- `CompiledStyleSheet.__init__(*css)`, taking the compiler output stream as
input (the textual parsing itself is the external collaborator). -/
def CompiledStyleSheet.init (compiled : List RawRule) : CompiledStyleSheet :=
  ⟨List.insertionSort ruleLe (okRules compiled)⟩

/-- The matched declaration layers, in ascending cascade priority: the
`(declarations for ... if pred(node))` generators of `match` (lines 179-192). -/
def matchedDecls (sheet : CompiledStyleSheet) (node : StyleNode) : List Style :=
  sheet.selectors.filterMap fun r =>
    if r.pred node then some r.declarations else none

/-- The `after_style` computation of `match` (lines 179-183). -/
def afterStyleOf (sheet : CompiledStyleSheet) (node : StyleNode) : Option Style :=
  merge_styles (matchedDecls sheet (PseudoStyleNode node "after"))

/-- The opaque bookkeeping layer of `match` (line 187). -/
def bookkeepingLayer (node : StyleNode) : Style :=
  [("-gaphor-style-node", .nodeRef node), ("-gaphor-compiled-style-sheet", .sheetRef)]

/-- The full layer list passed to the final `merge_styles` call of `match`
(lines 185-192): `{"::after": after_style} if after_style else {}`, the
bookkeeping entries, then the matching declaration sets. -/
def mainLayers (sheet : CompiledStyleSheet) (node : StyleNode) (after_style : Style) :
    List Style :=
  (if after_style.isEmpty then [] else [("::after", Value.sub after_style)]) ::
    bookkeepingLayer node :: matchedDecls sheet node

/-- `CompiledStyleSheet.match(node)` (lines 177-193); `match` is a reserved
word in Lean, hence `matchStyle`. -/
def CompiledStyleSheet.matchStyle (sheet : CompiledStyleSheet) (node : StyleNode) :
    Option Style :=
  (afterStyleOf sheet node).bind fun after_style =>
    merge_styles (mainLayers sheet node after_style)

/-- Modelled from the spec: a single declaration entry as the external
compiler can produce it (§4.1, §6) -- a custom property with any value, or a
known `Style` property with either a variable reference or a value of the
property's declared domain.  The reserved `::after` and `-gaphor-*` entries
are engine-internal (§3) and never come from the compiler. -/
def declOk (p : String) (v : Value) : Bool :=
  if isCustomProp p then true
  else knownProp p && (v.isVar || fitsConcrete p v)

/-- A compiler-produced declaration set: every entry is `declOk`. -/
def DeclsOk (d : Style) : Prop := ∀ kv ∈ d, declOk kv.1 kv.2 = true

/-- An entry of a layer handed to `merge_styles` by `match`: a compiler
declaration, or one of the reserved engine-internal entries. -/
def entryOk (p : String) (v : Value) : Bool :=
  if isCustomProp p then true
  else if p = "::after" then v.isSub
  else if p = "-gaphor-style-node" || p = "-gaphor-compiled-style-sheet" then true
  else v.isVar || fitsConcrete p v

def LayerOk (d : Style) : Prop := ∀ kv ∈ d, entryOk kv.1 kv.2 = true

def LayersOk (styles : List Style) : Prop := ∀ d ∈ styles, LayerOk d

/-- Every surviving rule of a compiler output stream carries a
compiler-validated declaration set. -/
def RulesOk (compiled : List RawRule) : Prop := ∀ r ∈ compiled, DeclsOk r.declarations

example : merge_styles [] = some [] := by decide

example :
    merge_styles [[("color", .var "--accent")], [("--accent", .color ⟨0, 1⟩ ⟨0, 1⟩ ⟨1, 1⟩ ⟨1, 1⟩)]] =
      some [("color", .color ⟨0, 1⟩ ⟨0, 1⟩ ⟨1, 1⟩ ⟨1, 1⟩),
        ("--accent", .color ⟨0, 1⟩ ⟨0, 1⟩ ⟨1, 1⟩ ⟨1, 1⟩)] := by decide

/-! ### Association-list lemmas -/

theorem getp_updKey (s : Style) (k : String) (v : Value) (p : String) :
    getp (updKey s k v) p = if k = p then some v else getp s p := by
  induction s with
  | nil => simp [updKey, getp]
  | cons kv rest ih =>
    obtain ⟨k', v'⟩ := kv
    by_cases hk : k' = k
    · subst hk
      by_cases hp : k' = p <;> simp [updKey, getp, hp]
    · by_cases hp : k' = p
      · subst hp
        simp [updKey, getp, hk, Ne.symm hk]
      · simp [updKey, getp, hk, hp, ih]

theorem getp_append (a b : Style) (p : String) :
    getp (a ++ b) p = (getp a p).orElse (fun _ => getp b p) := by
  induction a with
  | nil => simp [getp]
  | cons kv rest ih =>
    by_cases hp : kv.1 = p <;> simp [getp, hp, ih, Option.orElse]

theorem getp_eq_none_iff (s : Style) (p : String) :
    getp s p = none ↔ p ∉ s.map Prod.fst := by
  induction s with
  | nil => simp [getp]
  | cons kv rest ih =>
    by_cases hp : kv.1 = p
    · simp [getp, hp]
    · simp [getp, hp, ih, Ne.symm hp]

theorem getp_isSome_iff (s : Style) (p : String) :
    (getp s p).isSome ↔ p ∈ s.map Prod.fst := by
  induction s with
  | nil => simp [getp]
  | cons kv rest ih =>
    by_cases hp : kv.1 = p
    · simp [getp, hp]
    · simp [getp, hp, ih, Ne.symm hp]

theorem getp_mem {s : Style} {p : String} {v : Value} (h : getp s p = some v) :
    (p, v) ∈ s := by
  induction s with
  | nil => simp [getp] at h
  | cons kv rest ih =>
    obtain ⟨k', v'⟩ := kv
    simp only [getp] at h
    by_cases hp : k' = p
    · subst hp
      simp at h
      rw [← h]
      exact List.mem_cons_self _ _
    · rw [if_neg hp] at h
      exact List.mem_cons_of_mem _ (ih h)

theorem getp_of_nodup_mem {s : Style} {p : String} {v : Value}
    (hn : (s.map Prod.fst).Nodup) (h : (p, v) ∈ s) : getp s p = some v := by
  induction s with
  | nil => simp at h
  | cons kv rest ih =>
    simp only [List.map_cons, List.nodup_cons] at hn
    rcases List.mem_cons.mp h with h | h
    · subst h
      simp [getp]
    · have hne : kv.1 ≠ p := by
        intro he
        exact hn.1 (he ▸ List.mem_map_of_mem Prod.fst h)
      simp [getp, hne, ih hn.2 h]

theorem getp_reverse_of_nodup {s : Style} (hn : (s.map Prod.fst).Nodup) (p : String) :
    getp s.reverse p = getp s p := by
  cases hget : getp s p with
  | some v =>
    have hrev : ((s.reverse).map Prod.fst).Nodup := by
      rw [List.map_reverse]
      exact List.nodup_reverse.mpr hn
    exact getp_of_nodup_mem hrev (List.mem_reverse.mpr (getp_mem hget))
  | none =>
    rw [getp_eq_none_iff] at hget ⊢
    simpa using hget

theorem updKey_mem {s : Style} {k : String} {v : Value} {kv : String × Value}
    (h : kv ∈ updKey s k v) : kv = (k, v) ∨ kv ∈ s := by
  induction s with
  | nil => simpa [updKey] using h
  | cons kv' rest ih =>
    by_cases hk : kv'.1 = k
    · cases kv'
      simp_all [updKey]
      tauto
    · cases kv'
      simp only [updKey, hk, if_false, List.mem_cons] at h
      rcases h with h | h
      · simp [h]
      · rcases ih h with h | h <;> simp [h]

theorem updKey_keys_nodup {s : Style} (hn : (s.map Prod.fst).Nodup) (k : String)
    (v : Value) : ((updKey s k v).map Prod.fst).Nodup := by
  induction s with
  | nil => simp [updKey]
  | cons kv rest ih =>
    simp only [List.map_cons, List.nodup_cons] at hn
    by_cases hk : kv.1 = k
    · subst hk
      simpa [updKey] using hn
    · simp only [updKey, hk, if_false, List.map_cons, List.nodup_cons]
      refine ⟨fun hmem => ?_, ih hn.2⟩
      rcases List.mem_map.mp hmem with ⟨kv', hkv', hfst⟩
      rcases updKey_mem hkv' with h | h
      · exact hk (by rw [← hfst, h])
      · exact hn.1 (hfst ▸ List.mem_map_of_mem Prod.fst h)

theorem dictUpdate_mem {t s : Style} {kv : String × Value}
    (h : kv ∈ dictUpdate s t) : kv ∈ s ∨ kv ∈ t := by
  induction t generalizing s with
  | nil => simp_all [dictUpdate]
  | cons kv' rest ih =>
    simp only [dictUpdate, List.foldl_cons] at h
    rcases ih h with h | h
    · rcases updKey_mem h with h | h
      · right; simp [h]
      · left; exact h
    · right; exact List.mem_cons_of_mem _ h

theorem dictUpdate_keys_nodup {s : Style} (hn : (s.map Prod.fst).Nodup)
    (t : Style) : ((dictUpdate s t).map Prod.fst).Nodup := by
  induction t generalizing s with
  | nil => simpa [dictUpdate]
  | cons kv rest ih =>
    simpa [dictUpdate] using ih (updKey_keys_nodup hn kv.1 kv.2)

theorem foldl_dictUpdate_mem {styles : List Style} {kv : String × Value} :
    ∀ {s : Style}, kv ∈ styles.foldl dictUpdate s → kv ∈ s ∨ ∃ L ∈ styles, kv ∈ L := by
  induction styles with
  | nil => intro s h; simp_all
  | cons L rest ih =>
    intro s h
    simp only [List.foldl_cons] at h
    rcases ih h with h' | h'
    · rcases dictUpdate_mem h' with h'' | h''
      · exact Or.inl h''
      · exact Or.inr ⟨L, by simp, h''⟩
    · obtain ⟨L', hL', hkv⟩ := h'
      exact Or.inr ⟨L', by simp [hL'], hkv⟩

theorem mergeFold_mem {styles : List Style} {kv : String × Value}
    (h : kv ∈ mergeFold styles) : ∃ L ∈ styles, kv ∈ L := by
  rcases foldl_dictUpdate_mem h with h' | h'
  · simp at h'
  · exact h'

theorem foldl_dictUpdate_keys_nodup (styles : List Style) :
    ∀ {s : Style}, (s.map Prod.fst).Nodup →
      ((styles.foldl dictUpdate s).map Prod.fst).Nodup := by
  induction styles with
  | nil => intro s hs; simpa
  | cons L rest ih =>
    intro s hs
    simpa using ih (dictUpdate_keys_nodup hs L)

theorem mergeFold_keys_nodup (styles : List Style) :
    ((mergeFold styles).map Prod.fst).Nodup :=
  foldl_dictUpdate_keys_nodup styles (by simp)

/-! ### Layer-fold lookup lemmas -/

theorem getp_dictUpdate (s t : Style) (p : String) :
    getp (dictUpdate s t) p = (getp t.reverse p).orElse (fun _ => getp s p) := by
  induction t generalizing s with
  | nil => simp [dictUpdate, getp]
  | cons kv t ih =>
    obtain ⟨k, v⟩ := kv
    simp only [dictUpdate, List.foldl_cons] at *
    rw [ih (updKey s k v), List.reverse_cons, getp_append, getp_updKey]
    cases getp t.reverse p with
    | some w => simp [Option.orElse]
    | none =>
      by_cases hk : k = p <;> simp [getp, hk, Option.orElse]

/-- The backwards-scanning lookup a fold of `dict.update` calls realizes. -/
def lookupLayers (p : String) : List Style → Option Value
  | [] => none
  | L :: ls => (getp L.reverse p).orElse (fun _ => lookupLayers p ls)

theorem lookupLayers_append (p : String) (a b : List Style) :
    lookupLayers p (a ++ b) =
      (lookupLayers p a).orElse (fun _ => lookupLayers p b) := by
  induction a with
  | nil => simp [lookupLayers]
  | cons L a ih =>
    simp only [List.cons_append, lookupLayers]
    cases hg : getp L.reverse p with
    | some w => simp [Option.orElse]
    | none => cases hl : lookupLayers p a <;> simp [Option.orElse, ih, hl]

theorem getp_foldl_dictUpdate (styles : List Style) (p : String) :
    ∀ s, getp (styles.foldl dictUpdate s) p =
      (lookupLayers p styles.reverse).orElse (fun _ => getp s p) := by
  induction styles with
  | nil => simp [lookupLayers, Option.orElse]
  | cons L ls ih =>
    intro s
    simp only [List.foldl_cons, List.reverse_cons]
    rw [ih (dictUpdate s L), lookupLayers_append, getp_dictUpdate]
    cases hll : lookupLayers p ls.reverse <;> cases hgl : getp L.reverse p <;>
      simp [lookupLayers, Option.orElse, hll, hgl]

theorem getp_mergeFold (styles : List Style) (p : String) :
    getp (mergeFold styles) p = lookupLayers p styles.reverse := by
  rw [mergeFold, getp_foldl_dictUpdate]
  cases lookupLayers p styles.reverse <;> simp [getp, Option.orElse]

theorem lookupLayers_isSome {p : String} {L : Style} :
    ∀ {ls : List Style}, L ∈ ls → (getp L p).isSome → (lookupLayers p ls).isSome := by
  intro ls
  induction ls with
  | nil => intro h; simp at h
  | cons M rest ih =>
    intro hmem hsome
    rcases List.mem_cons.mp hmem with hM | hM
    · subst hM
      have hrev : (getp L.reverse p).isSome := by
        rw [getp_isSome_iff] at hsome ⊢
        simpa using hsome
      rcases Option.isSome_iff_exists.mp hrev with ⟨v, hv⟩
      simp [lookupLayers, hv, Option.orElse]
    · cases hg : getp M.reverse p with
      | some w => simp [lookupLayers, hg, Option.orElse]
      | none => simpa [lookupLayers, hg, Option.orElse] using ih hM hsome

theorem mergeFold_isSome {styles : List Style} {L : Style} {p : String}
    (hL : L ∈ styles) (h : (getp L p).isSome) :
    (getp (mergeFold styles) p).isSome := by
  rw [getp_mergeFold]
  exact lookupLayers_isSome (List.mem_reverse.mpr hL) h

/-! ### `resolve_variables` lemmas -/

theorem layerStep_no_var {style : Style} {p : String} {lv v : Value}
    (h : layerStep style p lv = some v) : v.isVar = false := by
  unfold layerStep at h
  by_cases ht : lv.truthy
  · rw [if_pos ht] at h
    cases lv with
    | var nm =>
      cases hnm : getp style nm with
      | none => simp [hnm] at h
      | some w =>
        cases hd : declarations p w with
        | none => simp [hnm, hd] at h
        | some resolved =>
          simp only [hnm, hd] at h
          by_cases hr : resolved.truthy && !resolved.isVar
          · rw [if_pos hr] at h
            cases h
            simpa using (Bool.and_elim_right hr)
          · rw [if_neg hr] at h
            cases h
    | num q => cases h; rfl
    | color r g b a => cases h; rfl
    | str s => cases h; rfl
    | seq l => cases h; rfl
    | sub d => cases h; rfl
    | nodeRef n => cases h; rfl
    | sheetRef => cases h; rfl
  · rw [if_neg ht] at h
    cases h

theorem scanLayers_no_var {style : Style} {p : String} :
    ∀ {ls : List Style} {v : Value}, scanLayers style p ls = some v → v.isVar = false := by
  intro ls
  induction ls with
  | nil => intro v h; simp [scanLayers] at h
  | cons L rest ih =>
    intro v h
    cases hg : getp L p with
    | none =>
      simp only [scanLayers, hg] at h
      exact ih h
    | some lv =>
      cases hs : layerStep style p lv with
      | none =>
        simp only [scanLayers, hg, hs] at h
        exact ih h
      | some r =>
        simp only [scanLayers, hg, hs, Option.some.injEq] at h
        subst h
        exact layerStep_no_var hs

theorem scanLayers_isSome {style : Style} {p : String} {L : Style} {lv : Value} :
    ∀ {ls : List Style}, L ∈ ls → getp L p = some lv →
      (layerStep style p lv).isSome → (scanLayers style p ls).isSome := by
  intro ls
  induction ls with
  | nil => intro h; simp at h
  | cons M rest ih =>
    intro hmem hget hstep
    rcases List.mem_cons.mp hmem with hM | hM
    · subst hM
      rcases Option.isSome_iff_exists.mp hstep with ⟨r, hr⟩
      simp [scanLayers, hget, hr]
    · cases hg : getp M p with
      | none =>
        simpa [scanLayers, hg] using ih hM hget hstep
      | some lv' =>
        cases hs : layerStep style p lv' with
        | none => simpa [scanLayers, hg, hs] using ih hM hget hstep
        | some r => simp [scanLayers, hg, hs]

theorem scanLayers_sources {style : Style} {p : String} :
    ∀ {ls : List Style} {v : Value}, scanLayers style p ls = some v →
      ∃ L ∈ ls, ∃ lv, getp L p = some lv ∧ layerStep style p lv = some v := by
  intro ls
  induction ls with
  | nil => intro v h; simp [scanLayers] at h
  | cons L rest ih =>
    intro v h
    cases hg : getp L p with
    | none =>
      simp only [scanLayers, hg] at h
      obtain ⟨M, hM, lv, h1, h2⟩ := ih h
      exact ⟨M, List.mem_cons_of_mem _ hM, lv, h1, h2⟩
    | some lv =>
      cases hs : layerStep style p lv with
      | none =>
        simp only [scanLayers, hg, hs] at h
        obtain ⟨M, hM, lv', h1, h2⟩ := ih h
        exact ⟨M, List.mem_cons_of_mem _ hM, lv', h1, h2⟩
      | some r =>
        simp only [scanLayers, hg, hs, Option.some.injEq] at h
        subst h
        exact ⟨L, List.mem_cons_self _ _, lv, hg, hs⟩

theorem resolveGo_getp_concrete {style : Style} {rl : List Style} :
    ∀ {st : Style} {p : String} {v : Value}, getp st p = some v → v.isVar = false →
      getp (resolveGo style rl st) p = some v := by
  intro st
  induction st with
  | nil => intro p v h _; simp [getp] at h
  | cons kv rest ih =>
    intro p v h hvar
    obtain ⟨q, w⟩ := kv
    by_cases hp : q = p
    · subst hp
      have hw : w = v := by simpa [getp] using h
      subst hw
      simp [resolveGo, hvar, getp]
    · have h' : getp rest p = some v := by simpa [getp, hp] using h
      cases hw : w.isVar with
      | true =>
        cases hscan : scanLayers style q rl with
        | some r => simp [resolveGo, hw, hscan, getp, hp, ih h' hvar]
        | none => simp [resolveGo, hw, hscan, ih h' hvar]
      | false => simp [resolveGo, hw, getp, hp, ih h' hvar]

theorem resolveGo_getp_none {style : Style} {rl : List Style} :
    ∀ {st : Style} {p : String}, getp st p = none →
      getp (resolveGo style rl st) p = none := by
  intro st
  induction st with
  | nil => intro p _; simp [resolveGo, getp]
  | cons kv rest ih =>
    intro p h
    obtain ⟨q, w⟩ := kv
    have hp : q ≠ p := by
      intro he
      simp [getp, he] at h
    have h' : getp rest p = none := by simpa [getp, hp] using h
    cases hw : w.isVar with
    | true =>
      cases hscan : scanLayers style q rl with
      | some r => simp [resolveGo, hw, hscan, getp, hp, ih h']
      | none => simp [resolveGo, hw, hscan, ih h']
    | false => simp [resolveGo, hw, getp, hp, ih h']

theorem resolveGo_getp_var {style : Style} {rl : List Style} :
    ∀ {st : Style} {p x : String},
      (st.map Prod.fst).Nodup → getp st p = some (.var x) →
      getp (resolveGo style rl st) p = scanLayers style p rl := by
  intro st
  induction st with
  | nil => intro p x _ h; simp [getp] at h
  | cons kv rest ih =>
    intro p x hn h
    obtain ⟨q, w⟩ := kv
    simp only [List.map_cons, List.nodup_cons] at hn
    by_cases hp : q = p
    · subst hp
      have hw : w = .var x := by simpa [getp] using h
      subst hw
      have hrest : getp rest q = none := by
        rw [getp_eq_none_iff]
        exact hn.1
      cases hscan : scanLayers style q rl with
      | some r => simp [resolveGo, Value.isVar, hscan, getp]
      | none =>
        simp [resolveGo, Value.isVar, hscan, resolveGo_getp_none hrest]
    · have h' : getp rest p = some (.var x) := by simpa [getp, hp] using h
      cases hw : w.isVar with
      | true =>
        cases hscan : scanLayers style q rl with
        | some r => simp [resolveGo, hw, hscan, getp, hp, ih hn.2 h']
        | none => simp [resolveGo, hw, hscan, ih hn.2 h']
      | false => simp [resolveGo, hw, getp, hp, ih hn.2 h']

theorem resolveGo_no_var {style : Style} {rl : List Style} :
    ∀ {st : Style} {p : String} {v : Value},
      getp (resolveGo style rl st) p = some v → v.isVar = false := by
  intro st
  induction st with
  | nil => intro p v h; simp [resolveGo, getp] at h
  | cons kv rest ih =>
    intro p v h
    obtain ⟨q, w⟩ := kv
    cases hw : w.isVar with
    | true =>
      cases hscan : scanLayers style q rl with
      | some r =>
        simp only [resolveGo, hw, hscan, if_true] at h
        by_cases hp : q = p
        · subst hp
          have hr : r = v := by simpa [getp] using h
          subst hr
          exact scanLayers_no_var hscan
        · have h' : getp (resolveGo style rl rest) p = some v := by
            simpa [getp, hp] using h
          exact ih h'
      | none =>
        simp only [resolveGo, hw, hscan, if_true] at h
        exact ih h
    | false =>
      simp only [resolveGo, hw, Bool.false_eq_true, if_false] at h
      by_cases hp : q = p
      · subst hp
        have hweq : w = v := by simpa [getp] using h
        subst hweq
        exact hw
      · have h' : getp (resolveGo style rl rest) p = some v := by
          simpa [getp, hp] using h
        exact ih h'

theorem resolveGo_getp_cases {style : Style} {rl : List Style} :
    ∀ {st : Style} {p : String} {v : Value},
      (st.map Prod.fst).Nodup → getp (resolveGo style rl st) p = some v →
      getp st p = some v ∨ scanLayers style p rl = some v := by
  intro st
  induction st with
  | nil => intro p v _ h; simp [resolveGo, getp] at h
  | cons kv rest ih =>
    intro p v hn h
    obtain ⟨q, w⟩ := kv
    simp only [List.map_cons, List.nodup_cons] at hn
    cases hw : w.isVar with
    | true =>
      cases hscan : scanLayers style q rl with
      | some r =>
        simp only [resolveGo, hw, hscan, if_true] at h
        by_cases hp : q = p
        · subst hp
          have hr : r = v := by simpa [getp] using h
          subst hr
          exact Or.inr hscan
        · have h' : getp (resolveGo style rl rest) p = some v := by
            simpa [getp, hp] using h
          rcases ih hn.2 h' with h'' | h''
          · exact Or.inl (by simpa [getp, hp] using h'')
          · exact Or.inr h''
      | none =>
        simp only [resolveGo, hw, hscan, if_true] at h
        by_cases hp : q = p
        · subst hp
          have hrest : getp rest q = none := by
            rw [getp_eq_none_iff]
            exact hn.1
          rw [resolveGo_getp_none hrest] at h
          cases h
        · rcases ih hn.2 h with h'' | h''
          · exact Or.inl (by simpa [getp, hp] using h'')
          · exact Or.inr h''
    | false =>
      simp only [resolveGo, hw, Bool.false_eq_true, if_false] at h
      by_cases hp : q = p
      · subst hp
        have hweq : w = v := by simpa [getp] using h
        subst hweq
        exact Or.inl (by simp [getp])
      · have h' : getp (resolveGo style rl rest) p = some v := by
          simpa [getp, hp] using h
        rcases ih hn.2 h' with h'' | h''
        · exact Or.inl (by simpa [getp, hp] using h'')
        · exact Or.inr h''

/-! ### Validity propagation -/

theorem declarations_fits {p : String} {w v : Value}
    (hc : isCustomProp p = false) (h : declarations p w = some v)
    (hvar : v.isVar = false) : fitsConcrete p v = true := by
  unfold declarations at h
  rw [hc] at h
  simp only [Bool.false_eq_true, if_false] at h
  cases hw : w.isVar with
  | true =>
    rw [hw] at h
    simp only [if_true] at h
    cases h
    rw [hvar] at hw
    cases hw
  | false =>
    rw [hw] at h
    simp only [Bool.false_eq_true, if_false] at h
    cases hf : fitsConcrete p w with
    | true =>
      rw [hf] at h
      simp only [if_true] at h
      cases h
      exact hf
    | false =>
      rw [hf] at h
      simp at h

theorem entryOk_concrete {p : String} {v : Value}
    (hc : isCustomProp p = false) (ha : p ≠ "::after")
    (hg1 : p ≠ "-gaphor-style-node") (hg2 : p ≠ "-gaphor-compiled-style-sheet")
    (h : entryOk p v = true) (hvar : v.isVar = false) : fitsConcrete p v = true := by
  unfold entryOk at h
  rw [hc] at h
  simp only [Bool.false_eq_true, if_false, ha, hg1, hg2, decide_False, Bool.or_self] at h
  simpa [hvar] using h

theorem layerStep_cases {style : Style} {p : String} {lv v : Value}
    (h : layerStep style p lv = some v) :
    v = lv ∨ ∃ w, declarations p w = some v := by
  unfold layerStep at h
  by_cases ht : lv.truthy
  · rw [if_pos ht] at h
    cases lv with
    | var nm =>
      cases hnm : getp style nm with
      | none => simp [hnm] at h
      | some w =>
        cases hd : declarations p w with
        | none => simp [hnm, hd] at h
        | some resolved =>
          simp only [hnm, hd] at h
          by_cases hr : resolved.truthy && !resolved.isVar
          · rw [if_pos hr] at h
            cases h
            exact Or.inr ⟨w, hd⟩
          · rw [if_neg hr] at h
            cases h
    | num q => cases h; exact Or.inl rfl
    | color r g b a => cases h; exact Or.inl rfl
    | str s => cases h; exact Or.inl rfl
    | seq l => cases h; exact Or.inl rfl
    | sub d => cases h; exact Or.inl rfl
    | nodeRef n => cases h; exact Or.inl rfl
    | sheetRef => cases h; exact Or.inl rfl
  · rw [if_neg ht] at h
    cases h

theorem mergeFold_entryOk {styles : List Style} (hok : LayersOk styles)
    {p : String} {v : Value} (h : getp (mergeFold styles) p = some v) :
    entryOk p v = true := by
  obtain ⟨L, hL, hmem⟩ := mergeFold_mem (getp_mem h)
  exact hok L hL (p, v) hmem

/-- Every non-reserved, non-custom property of the resolved style holds a
value of the property's declared domain, provided all layers are valid. -/
theorem resolved_fits {styles : List Style} (hok : LayersOk styles)
    {p : String} {v : Value}
    (hc : isCustomProp p = false) (ha : p ≠ "::after")
    (hg1 : p ≠ "-gaphor-style-node") (hg2 : p ≠ "-gaphor-compiled-style-sheet")
    (h : getp (resolve_variables (mergeFold styles) styles) p = some v) :
    fitsConcrete p v = true := by
  unfold resolve_variables at h
  have hvar : v.isVar = false := resolveGo_no_var h
  rcases resolveGo_getp_cases (mergeFold_keys_nodup styles) h with h' | h'
  · exact entryOk_concrete hc ha hg1 hg2 (mergeFold_entryOk hok h') hvar
  · obtain ⟨L, hL, lv, hg, hstep⟩ := scanLayers_sources h'
    rcases layerStep_cases hstep with hv | ⟨w, hd⟩
    · subst hv
      have hLmem : L ∈ styles := List.mem_reverse.mp hL
      have := hok L hLmem (p, v) (getp_mem hg)
      exact entryOk_concrete hc ha hg1 hg2 this hvar
    · exact declarations_fits hc hd hvar

/-! ### Literal property-domain facts -/

theorem fits_opacity (v : Value) : fitsConcrete "opacity" v = v.isNum := by rfl

theorem fits_fontSize (v : Value) : fitsConcrete "font-size" v = (v.isNum || v.isStr) := by rfl

theorem fits_color_of {p : String} (hcp : colorProp p = true) (v : Value) :
    fitsConcrete p v = v.isColor := by
  simp [fitsConcrete, hcp]

theorem colorProp_cases {p : String} (h : colorProp p = true) :
    p = "color" ∨ p = "background-color" ∨ p = "text-color" := by
  simpa [colorProp, or_assoc] using h

theorem Value.isVar_true_iff {v : Value} : v.isVar = true ↔ ∃ x, v = .var x := by
  cases v <;> simp [Value.isVar]

theorem Value.isNum_true_iff {v : Value} : v.isNum = true ↔ ∃ q, v = .num q := by
  cases v <;> simp [Value.isNum]

theorem Value.isColor_true_iff {v : Value} :
    v.isColor = true ↔ ∃ r g b a, v = .color r g b a := by
  cases v <;> simp [Value.isColor]

theorem resolved_opacity_isNum {styles : List Style} (hok : LayersOk styles)
    {v : Value}
    (h : getp (resolve_variables (mergeFold styles) styles) "opacity" = some v) :
    v.isNum = true := by
  have := resolved_fits hok (by decide) (by decide) (by decide) (by decide) h
  rwa [fits_opacity] at this

theorem resolved_colorProp_isColor {styles : List Style} (hok : LayersOk styles)
    {cp : String} (hcp : colorProp cp = true) {v : Value}
    (h : getp (resolve_variables (mergeFold styles) styles) cp = some v) :
    v.isColor = true := by
  have hfits : fitsConcrete cp v = true :=
    resolved_fits hok
      (by rcases colorProp_cases hcp with h' | h' | h' <;> subst h' <;> decide)
      (by rcases colorProp_cases hcp with h' | h' | h' <;> subst h' <;> decide)
      (by rcases colorProp_cases hcp with h' | h' | h' <;> subst h' <;> decide)
      (by rcases colorProp_cases hcp with h' | h' | h' <;> subst h' <;> decide) h
  rwa [fits_color_of hcp] at hfits

/-! ### `scanAbs` and font-size scaling lemmas -/

theorem scanAbs_foldl_cases {q : Number} :
    ∀ {styles : List Style} {acc : Option Number},
      styles.foldl scanAbsStep acc = some q →
      (∃ L ∈ styles, getp L "font-size" = some (.num q) ∧ q.nonzero = true) ∨
        acc = some q := by
  intro styles
  induction styles with
  | nil => intro acc h; exact Or.inr h
  | cons L rest ih =>
    intro acc h
    simp only [List.foldl_cons] at h
    rcases ih h with h' | h'
    · obtain ⟨M, hM, h1, h2⟩ := h'
      exact Or.inl ⟨M, by simp [hM], h1, h2⟩
    · unfold scanAbsStep at h'
      cases hg : getp L "font-size" with
      | none =>
        simp only [hg] at h'
        exact Or.inr h'
      | some v =>
        cases v with
        | num q' =>
          simp only [hg] at h'
          cases hnz : q'.nonzero with
          | true =>
            rw [hnz] at h'
            simp only [if_true, Option.some.injEq] at h'
            subst h'
            exact Or.inl ⟨L, by simp, hg, hnz⟩
          | false =>
            rw [hnz] at h'
            simp only [Bool.false_eq_true, if_false] at h'
            exact Or.inr h'
        | color r g b a => simp only [hg] at h'; exact Or.inr h'
        | str s => simp only [hg] at h'; exact Or.inr h'
        | seq l => simp only [hg] at h'; exact Or.inr h'
        | var x => simp only [hg] at h'; exact Or.inr h'
        | sub d => simp only [hg] at h'; exact Or.inr h'
        | nodeRef n => simp only [hg] at h'; exact Or.inr h'
        | sheetRef => simp only [hg] at h'; exact Or.inr h'

theorem scanAbs_mem {styles : List Style} {q : Number} (h : scanAbs styles = some q) :
    ∃ L ∈ styles, getp L "font-size" = some (.num q) ∧ q.nonzero = true := by
  rcases scanAbs_foldl_cases h with h' | h'
  · exact h'
  · cases h'

/-- When some layer carries an absolute (truthy numeric) font-size, the
resolved style always holds a `font-size` entry: the fallback scan cannot
lose the property, so the `KeyError` branch of line 127 is unreachable. -/
theorem resolved_fontSize_isSome {styles : List Style} {q : Number}
    (habs : scanAbs styles = some q) :
    (getp (resolve_variables (mergeFold styles) styles) "font-size").isSome := by
  obtain ⟨L, hL, hg, hnz⟩ := scanAbs_mem habs
  have hm : (getp (mergeFold styles) "font-size").isSome :=
    mergeFold_isSome hL (by simp [hg])
  rcases Option.isSome_iff_exists.mp hm with ⟨w, hw⟩
  cases hwv : w.isVar with
  | false =>
    unfold resolve_variables
    rw [resolveGo_getp_concrete hw hwv]
    rfl
  | true =>
    obtain ⟨x, hx⟩ := Value.isVar_true_iff.mp hwv
    subst hx
    unfold resolve_variables
    rw [resolveGo_getp_var (mergeFold_keys_nodup styles) hw]
    exact scanLayers_isSome (List.mem_reverse.mpr hL) hg
      (by simp [layerStep, Value.truthy, hnz])

theorem fontScaleStage_isSome {abs : Option Number} {st : Style}
    (h : abs.isSome → (getp st "font-size").isSome) :
    (fontScaleStage abs st).isSome := by
  cases abs with
  | none => simp [fontScaleStage]
  | some q =>
    rcases Option.isSome_iff_exists.mp (h rfl) with ⟨fs, hfs⟩
    unfold fontScaleStage
    simp only [hfs]
    cases fontSizeFactorOf fs <;> simp

theorem fontScaleStage_getp_other {abs : Option Number} {st st' : Style}
    (h : fontScaleStage abs st = some st') {p : String} (hp : p ≠ "font-size") :
    getp st' p = getp st p := by
  cases abs with
  | none =>
    simp only [fontScaleStage] at h
    cases h
    rfl
  | some q =>
    unfold fontScaleStage at h
    cases hfs : getp st "font-size" with
    | none => simp [hfs] at h
    | some fs =>
      simp only [hfs] at h
      cases hr : fontSizeFactorOf fs with
      | some ratio =>
        simp only [hr, Option.some.injEq] at h
        subst h
        rw [getp_updKey, if_neg (Ne.symm hp)]
      | none =>
        simp only [hr, Option.some.injEq] at h
        subst h
        rfl

/-! ### Opacity pass lemmas -/

theorem applyOpacity_isSome {op : Value} {st : Style} {cp : String}
    (hop : op.isNum = true)
    (hcol : ∀ v, getp st cp = some v → v.isColor = true) :
    (applyOpacity op st cp).isSome := by
  unfold applyOpacity
  cases hg : getp st cp with
  | none => simp
  | some v =>
    have hvc := hcol v hg
    obtain ⟨r, g, b, a, hv⟩ := Value.isColor_true_iff.mp hvc
    subst hv
    obtain ⟨q, hq⟩ := Value.isNum_true_iff.mp hop
    subst hq
    cases ha : a.isPos <;> simp [ha, opacityMulValue]

theorem applyOpacity_getp_other {op : Value} {st st' : Style} {cp : String}
    (h : applyOpacity op st cp = some st') {p : String} (hp : p ≠ cp) :
    getp st' p = getp st p := by
  unfold applyOpacity at h
  cases hg : getp st cp with
  | none =>
    simp only [hg, Option.some.injEq] at h
    subst h
    rfl
  | some v =>
    simp only [hg] at h
    cases v with
    | color r g b a =>
      replace h : (if a.isPos then opacityMulValue op r g b a st cp
          else some st) = some st' := h
      cases ha : a.isPos with
      | true =>
        rw [ha] at h
        simp only [if_true] at h
        cases op with
        | num q =>
          simp only [opacityMulValue, Option.some.injEq] at h
          subst h
          rw [getp_updKey, if_neg (Ne.symm hp)]
        | color r' g' b' a' => simp [opacityMulValue] at h
        | str s => simp [opacityMulValue] at h
        | seq l => simp [opacityMulValue] at h
        | var x => simp [opacityMulValue] at h
        | sub d => simp [opacityMulValue] at h
        | nodeRef n => simp [opacityMulValue] at h
        | sheetRef => simp [opacityMulValue] at h
      | false =>
        rw [ha] at h
        simp only [Bool.false_eq_true, if_false, Option.some.injEq] at h
        subst h
        rfl
    | num q =>
      by_cases ht : Value.truthy (.num q) <;> simp [ht] at h
      subst h; rfl
    | str s =>
      by_cases ht : Value.truthy (.str s) <;> simp [ht] at h
      subst h; rfl
    | seq l =>
      by_cases ht : Value.truthy (.seq l) <;> simp [ht] at h
      subst h; rfl
    | var x =>
      by_cases ht : Value.truthy (.var x) <;> simp [ht] at h
      subst h; rfl
    | sub d =>
      by_cases ht : Value.truthy (.sub d) <;> simp [ht] at h
      subst h; rfl
    | nodeRef n =>
      by_cases ht : Value.truthy (.nodeRef n) <;> simp [ht] at h
      subst h; rfl
    | sheetRef =>
      by_cases ht : Value.truthy Value.sheetRef <;> simp [ht] at h
      subst h; rfl

/-- The single-property opacity rewrite on a color value: alpha is multiplied
by the opacity exactly when it is strictly positive. -/
theorem applyOpacity_color {q : Number} {st st' : Style} {cp : String}
    {r g b a : Number} (hg : getp st cp = some (.color r g b a))
    (h : applyOpacity (.num q) st cp = some st') :
    getp st' cp = some (.color r g b (if a.isPos then a.mul q else a)) := by
  unfold applyOpacity at h
  rw [hg] at h
  replace h : (if a.isPos then opacityMulValue (.num q) r g b a st cp
      else some st) = some st' := h
  cases ha : a.isPos with
  | true =>
    rw [ha] at h
    simp only [if_true, opacityMulValue, Option.some.injEq] at h
    subst h
    simp [getp_updKey, ha]
  | false =>
    rw [ha] at h
    simp only [Bool.false_eq_true, if_false, Option.some.injEq] at h
    subst h
    rw [hg]
    simp [ha]

theorem applyOpacity_getp_none {op : Value} {st st' : Style} {cp : String}
    (hg : getp st cp = none) (h : applyOpacity op st cp = some st') : st' = st := by
  unfold applyOpacity at h
  simp only [hg, Option.some.injEq] at h
  exact h.symm

theorem opacityPass_isSome {st : Style}
    (hop : ∀ v, getp st "opacity" = some v → v.isNum = true)
    (hcol : ∀ cp, colorProp cp = true → ∀ v, getp st cp = some v → v.isColor = true) :
    (opacityPass st).isSome := by
  unfold opacityPass
  cases ho : getp st "opacity" with
  | none => simp
  | some op =>
    have hopn := hop op ho
    have h1 : (applyOpacity op st "color").isSome :=
      applyOpacity_isSome hopn (hcol "color" (by decide))
    rcases Option.isSome_iff_exists.mp h1 with ⟨s1, hs1⟩
    have hcol1 : ∀ v, getp s1 "background-color" = some v → v.isColor = true := by
      intro v hv
      rw [applyOpacity_getp_other hs1 (by decide)] at hv
      exact hcol "background-color" (by decide) v hv
    have h2 : (applyOpacity op s1 "background-color").isSome :=
      applyOpacity_isSome hopn hcol1
    rcases Option.isSome_iff_exists.mp h2 with ⟨s2, hs2⟩
    have hcol2 : ∀ v, getp s2 "text-color" = some v → v.isColor = true := by
      intro v hv
      rw [applyOpacity_getp_other hs2 (by decide)] at hv
      rw [applyOpacity_getp_other hs1 (by decide)] at hv
      exact hcol "text-color" (by decide) v hv
    have h3 : (applyOpacity op s2 "text-color").isSome :=
      applyOpacity_isSome hopn hcol2
    rcases Option.isSome_iff_exists.mp h3 with ⟨s3, hs3⟩
    simp [hs1, hs2, hs3, Option.bind]

theorem opacityPass_getp_other {st st' : Style} (h : opacityPass st = some st')
    {p : String} (hp : colorProp p = false) : getp st' p = getp st p := by
  unfold opacityPass at h
  cases ho : getp st "opacity" with
  | none =>
    simp only [ho, Option.some.injEq] at h
    subst h
    rfl
  | some op =>
    simp only [ho, Option.bind_eq_bind] at h
    have hps : p ≠ "color" ∧ p ≠ "background-color" ∧ p ≠ "text-color" := by
      constructor
      · intro he; subst he; simp [colorProp] at hp
      constructor
      · intro he; subst he; simp [colorProp] at hp
      · intro he; subst he; simp [colorProp] at hp
    rcases Option.bind_eq_some.mp h with ⟨s1, hs1, h⟩
    rcases Option.bind_eq_some.mp h with ⟨s2, hs2, hs3⟩
    rw [applyOpacity_getp_other hs3 hps.2.2, applyOpacity_getp_other hs2 hps.2.1,
      applyOpacity_getp_other hs1 hps.1]

/-- The opacity pass rewrites each of the three color properties that holds a
color: alpha is multiplied by the numeric opacity exactly when positive. -/
theorem opacityPass_colorProp {st st' : Style} {q : Number}
    (ho : getp st "opacity" = some (.num q))
    (h : opacityPass st = some st')
    {cp : String} (hcp : colorProp cp = true) {r g b a : Number}
    (hg : getp st cp = some (.color r g b a)) :
    getp st' cp = some (.color r g b (if a.isPos then a.mul q else a)) := by
  unfold opacityPass at h
  simp only [ho, Option.bind_eq_bind] at h
  rcases Option.bind_eq_some.mp h with ⟨s1, hs1, h⟩
  rcases Option.bind_eq_some.mp h with ⟨s2, hs2, hs3⟩
  rcases colorProp_cases hcp with hc | hc | hc <;> subst hc
  · rw [applyOpacity_getp_other hs3 (by decide), applyOpacity_getp_other hs2 (by decide)]
    exact applyOpacity_color hg hs1
  · have hbg : getp s1 "background-color" = some (.color r g b a) := by
      rw [applyOpacity_getp_other hs1 (by decide)]
      exact hg
    rw [applyOpacity_getp_other hs3 (by decide)]
    exact applyOpacity_color hbg hs2
  · have htc : getp s2 "text-color" = some (.color r g b a) := by
      rw [applyOpacity_getp_other hs2 (by decide), applyOpacity_getp_other hs1 (by decide)]
      exact hg
    exact applyOpacity_color htc hs3

theorem applyOpacity_none_frame {op : Value} {st st' : Style} {cp p : String}
    (h : applyOpacity op st cp = some st') (hg : getp st p = none) :
    getp st' p = none := by
  by_cases hp : p = cp
  · subst hp
    rw [applyOpacity_getp_none hg h]
    exact hg
  · rw [applyOpacity_getp_other h hp]
    exact hg

/-- The opacity pass never adds a property. -/
theorem opacityPass_getp_none {st st' : Style} (h : opacityPass st = some st')
    {p : String} (hg : getp st p = none) : getp st' p = none := by
  unfold opacityPass at h
  cases ho : getp st "opacity" with
  | none =>
    simp only [ho, Option.some.injEq] at h
    subst h
    exact hg
  | some op =>
    simp only [ho, Option.bind_eq_bind] at h
    rcases Option.bind_eq_some.mp h with ⟨s1, hs1, h⟩
    rcases Option.bind_eq_some.mp h with ⟨s2, hs2, hs3⟩
    exact applyOpacity_none_frame hs3
      (applyOpacity_none_frame hs2 (applyOpacity_none_frame hs1 hg))

/-! ### Totality of `merge_styles` for valid layers -/

theorem merge_styles_isSome {styles : List Style} (hok : LayersOk styles) :
    (merge_styles styles).isSome := by
  unfold merge_styles
  have h1 : (fontScaleStage (scanAbs styles)
      (resolve_variables (mergeFold styles) styles)).isSome := by
    apply fontScaleStage_isSome
    intro habs
    rcases Option.isSome_iff_exists.mp habs with ⟨q, hq⟩
    exact resolved_fontSize_isSome hq
  rcases Option.isSome_iff_exists.mp h1 with ⟨st1, hst1⟩
  rw [hst1]
  show (opacityPass st1).isSome
  apply opacityPass_isSome
  · intro v hv
    rw [fontScaleStage_getp_other hst1 (by decide)] at hv
    exact resolved_opacity_isNum hok hv
  · intro cp hcp v hv
    have hne : cp ≠ "font-size" := by
      rcases colorProp_cases hcp with h' | h' | h' <;> subst h' <;> decide
    rw [fontScaleStage_getp_other hst1 hne] at hv
    exact resolved_colorProp_isColor hok hcp hv

/-! ### Validity of the layers `match` builds -/

theorem declOk_entryOk {p : String} {v : Value} (h : declOk p v = true) :
    entryOk p v = true := by
  unfold declOk at h
  unfold entryOk
  by_cases hc : isCustomProp p = true
  · simp [hc]
  · replace hc : isCustomProp p = false := by simpa using hc
    simp only [hc, Bool.false_eq_true, if_false] at h ⊢
    have hk := Bool.and_elim_left h
    have hv := Bool.and_elim_right h
    have ha : p ≠ "::after" := by
      intro he
      rw [he] at hk
      exact absurd hk (by decide)
    have h1 : p ≠ "-gaphor-style-node" := by
      intro he
      rw [he] at hk
      exact absurd hk (by decide)
    have h2 : p ≠ "-gaphor-compiled-style-sheet" := by
      intro he
      rw [he] at hk
      exact absurd hk (by decide)
    simp [ha, h1, h2, hv]

theorem matchedDecls_LayersOk {sheet : CompiledStyleSheet} {node : StyleNode}
    (hok : ∀ r ∈ sheet.selectors, DeclsOk r.declarations) :
    LayersOk (matchedDecls sheet node) := by
  intro d hd
  unfold matchedDecls at hd
  rcases List.mem_filterMap.mp hd with ⟨r, hr, hmap⟩
  by_cases hp : r.pred node = true
  · simp only [hp, if_true, Option.some.injEq] at hmap
    subst hmap
    intro kv hkv
    exact declOk_entryOk (hok r hr kv hkv)
  · simp [hp] at hmap

theorem okRules_declsOk {compiled : List RawRule} (hok : RulesOk compiled) :
    ∀ r ∈ okRules compiled, DeclsOk r.declarations := by
  intro r hr
  unfold okRules at hr
  rcases List.mem_filterMap.mp hr with ⟨⟨i, raw⟩, hmem, hmap⟩
  have hraw : raw ∈ compiled :=
    List.getElem?_mem (List.mem_enum_iff_getElem?.mp hmem)
  cases hsel : raw.selspec with
  | error => simp [hsel] at hmap
  | ok pr sp =>
    simp only [hsel] at hmap
    cases hmap
    exact hok raw hraw

theorem init_declsOk {compiled : List RawRule} (hok : RulesOk compiled) :
    ∀ r ∈ (CompiledStyleSheet.init compiled).selectors, DeclsOk r.declarations := by
  intro r hr
  unfold CompiledStyleSheet.init at hr
  exact okRules_declsOk hok r ((List.mem_insertionSort ruleLe).mp hr)

theorem mainLayers_LayersOk {sheet : CompiledStyleSheet} {node : StyleNode}
    {after_style : Style}
    (hok : ∀ r ∈ sheet.selectors, DeclsOk r.declarations) :
    LayersOk (mainLayers sheet node after_style) := by
  intro d hd
  unfold mainLayers at hd
  rcases List.mem_cons.mp hd with h | h
  · subst h
    by_cases he : after_style.isEmpty
    · intro kv hkv
      simp [he] at hkv
    · intro kv hkv
      simp only [he, Bool.false_eq_true, if_false, List.mem_singleton] at hkv
      subst hkv
      rfl
  rcases List.mem_cons.mp h with h | h
  · subst h
    intro kv hkv
    rcases List.mem_cons.mp hkv with h' | h'
    · subst h'
      rfl
    · rcases List.mem_cons.mp h' with h'' | h''
      · subst h''
        rfl
      · simp at h''
  · exact matchedDecls_LayersOk hok d h

/-- `match` never raises for a stylesheet compiled from compiler-validated
rules: both `merge_styles` calls succeed. -/
theorem matchStyle_isSome {compiled : List RawRule} (hok : RulesOk compiled)
    (node : StyleNode) :
    ((CompiledStyleSheet.init compiled).matchStyle node).isSome := by
  unfold CompiledStyleSheet.matchStyle
  have hdecls := init_declsOk hok
  have hafter : (afterStyleOf (CompiledStyleSheet.init compiled) node).isSome := by
    unfold afterStyleOf
    exact merge_styles_isSome (matchedDecls_LayersOk hdecls)
  rcases Option.isSome_iff_exists.mp hafter with ⟨A, hA⟩
  rw [hA]
  show (merge_styles
    (mainLayers (CompiledStyleSheet.init compiled) node A)).isSome
  exact merge_styles_isSome (mainLayers_LayersOk hdecls)

/-! ### Order properties of the sort key -/

theorem specLt_irrefl : ∀ a : List Nat, specLt a a = false := by
  intro a
  induction a with
  | nil => rfl
  | cons x xs ih => simp [specLt, ih]

theorem specLt_total : ∀ a b : List Nat,
    specLt a b = true ∨ a = b ∨ specLt b a = true := by
  intro a
  induction a with
  | nil =>
    intro b
    cases b with
    | nil => exact Or.inr (Or.inl rfl)
    | cons y ys => exact Or.inl rfl
  | cons x xs ih =>
    intro b
    cases b with
    | nil => exact Or.inr (Or.inr rfl)
    | cons y ys =>
      rcases Nat.lt_trichotomy x y with h | h | h
      · exact Or.inl (by simp [specLt, h])
      · subst h
        rcases ih ys with h' | h' | h'
        · exact Or.inl (by simp [specLt, h'])
        · exact Or.inr (Or.inl (by rw [h']))
        · exact Or.inr (Or.inr (by simp [specLt, h']))
      · exact Or.inr (Or.inr (by simp [specLt, h]))

theorem specLt_trans : ∀ {a b c : List Nat},
    specLt a b = true → specLt b c = true → specLt a c = true := by
  intro a
  induction a with
  | nil =>
    intro b c hab hbc
    cases b with
    | nil => simp [specLt] at hab
    | cons y ys =>
      cases c with
      | nil => simp [specLt] at hbc
      | cons z zs => rfl
  | cons x xs ih =>
    intro b c hab hbc
    cases b with
    | nil => simp [specLt] at hab
    | cons y ys =>
      cases c with
      | nil => simp [specLt] at hbc
      | cons z zs =>
        by_cases hxy : x < y
        · by_cases hyz : y < z
          · simp [specLt, Nat.lt_trans hxy hyz]
          · by_cases hyz2 : y = z
            · subst hyz2
              simp [specLt, hxy]
            · simp [specLt, hyz, hyz2] at hbc
        · by_cases hxy2 : x = y
          · subst hxy2
            have hab' : specLt xs ys = true := by
              simpa [specLt, Nat.lt_irrefl] using hab
            by_cases hxz : x < z
            · simp [specLt, hxz]
            · by_cases hxz2 : x = z
              · subst hxz2
                have hbc' : specLt ys zs = true := by
                  simpa [specLt, Nat.lt_irrefl] using hbc
                simp [specLt, Nat.lt_irrefl, ih hab' hbc']
              · simp [specLt, hxz, hxz2] at hbc
          · simp [specLt, hxy, hxy2] at hab

theorem specLt_asymm {a b : List Nat} (h : specLt a b = true) : specLt b a = false := by
  cases hba : specLt b a with
  | false => rfl
  | true => rw [← specLt_irrefl a, specLt_trans h hba]

theorem specLt_ne {a b : List Nat} (h : specLt a b = true) : a ≠ b := by
  intro he
  subst he
  rw [specLt_irrefl] at h
  cases h

theorem ruleLe_iff {x y : Rule} : ruleLe x y ↔
    specLt x.specificity y.specificity = true ∨
      (x.specificity = y.specificity ∧ x.order ≤ y.order) := by
  unfold ruleLe
  by_cases h1 : specLt x.specificity y.specificity = true
  · simp [h1]
  · by_cases h2 : x.specificity = y.specificity
    · simp [h1, h2]
    · simp [h1, h2]

instance : IsTotal Rule ruleLe :=
  ⟨by
    intro x y
    rw [ruleLe_iff, ruleLe_iff]
    rcases specLt_total x.specificity y.specificity with h | h | h
    · exact Or.inl (Or.inl h)
    · rcases Nat.le_total x.order y.order with h' | h'
      · exact Or.inl (Or.inr ⟨h, h'⟩)
      · exact Or.inr (Or.inr ⟨h.symm, h'⟩)
    · exact Or.inr (Or.inl h)⟩

instance : IsTrans Rule ruleLe :=
  ⟨by
    intro x y z hxy hyz
    rw [ruleLe_iff] at hxy hyz ⊢
    rcases hxy with h1 | ⟨h1, h1'⟩
    · rcases hyz with h2 | ⟨h2, h2'⟩
      · exact Or.inl (specLt_trans h1 h2)
      · exact Or.inl (h2 ▸ h1)
    · rcases hyz with h2 | ⟨h2, h2'⟩
      · exact Or.inl (h1 ▸ h2)
      · exact Or.inr ⟨h1.trans h2, Nat.le_trans h1' h2'⟩⟩

instance (d : Style) : Decidable (DeclsOk d) := by unfold DeclsOk; infer_instance

instance (compiled : List RawRule) : Decidable (RulesOk compiled) := by
  unfold RulesOk; infer_instance

instance (L : Style) : Decidable (LayerOk L) := by unfold LayerOk; infer_instance

instance (styles : List Style) : Decidable (LayersOk styles) := by
  unfold LayersOk; infer_instance

/-! ## Claim theorems -/

/-- C1: for every compiled stylesheet (each surviving rule carrying a
compiler-validated declaration set) and every style node,
`CompiledStyleSheet.match` — and with it both `merge_styles` calls inside,
`resolve_variables` included — returns normally and never raises; in
particular the `resolved_style["font-size"]` lookup of line 127 cannot raise
`KeyError`, because whenever an absolute font-size was tracked the fallback
scan is guaranteed to leave a `font-size` entry in the resolved style. -/
theorem spec_c1 (compiled : List RawRule) (node : StyleNode)
    (hok : RulesOk compiled) :
    ((CompiledStyleSheet.init compiled).matchStyle node).isSome :=
  matchStyle_isSome hok node

/-- The scenario highlighted by C1: a higher-priority layer defines
`font-size` as an unresolvable variable reference while a lower-priority
layer defined an absolute numeric `font-size`. -/
def c1Rules : List RawRule :=
  [⟨.ok (fun _ => true) [0], [("font-size", .num ⟨10, 1⟩)]⟩,
   ⟨.ok (fun _ => true) [0], [("font-size", .var "--missing")]⟩]

def c1Node : StyleNode := ⟨"node", none, none, [], []⟩

theorem spec_c1_witness :
    RulesOk c1Rules ∧ ((CompiledStyleSheet.init c1Rules).matchStyle c1Node).isSome :=
  ⟨by decide, spec_c1 c1Rules c1Node (by decide)⟩

/-- C5: constructing a `CompiledStyleSheet` keeps exactly the rules whose
compilation succeeded (each keeping, as its declaration-order-index, its
position in the full concatenated compiler-output stream, error entries
included), and sorts them ascending by (specificity, order). -/
theorem spec_c5 (compiled : List RawRule) :
    ((CompiledStyleSheet.init compiled).selectors).Perm (okRules compiled) ∧
      List.Sorted ruleLe (CompiledStyleSheet.init compiled).selectors :=
  ⟨List.perm_insertionSort ruleLe (okRules compiled),
   List.sorted_insertionSort ruleLe (okRules compiled)⟩

/-- C9: compilation and matching are deterministic.  In this pure functional
embedding both `CompiledStyleSheet.init` and `matchStyle` are functions of
their inputs, so recompiling the identical input yields the identical
selector sequence and re-matching the same unchanged node yields an equal
`Style`. -/
theorem spec_c9 (compiled : List RawRule) (node : StyleNode) :
    (CompiledStyleSheet.init compiled).selectors =
        (CompiledStyleSheet.init compiled).selectors ∧
      (CompiledStyleSheet.init compiled).matchStyle node =
        (CompiledStyleSheet.init compiled).matchStyle node :=
  ⟨rfl, rfl⟩

/-- C10: `resolve_variables` is a frame-preserving pass: every property of
the merged style whose value is not a variable reference is kept with
exactly the same value, and no property absent from the merged style is ever
added. -/
theorem spec_c10 (style : Style) (style_layers : List Style) (p : String) :
    (∀ v, getp style p = some v → v.isVar = false →
        getp (resolve_variables style style_layers) p = some v) ∧
      (getp style p = none → getp (resolve_variables style style_layers) p = none) :=
  ⟨fun _ hv hvar => resolveGo_getp_concrete hv hvar,
   fun h => resolveGo_getp_none h⟩

theorem spec_c10_witness :
    getp (resolve_variables
        [("color", Value.color ⟨1, 1⟩ ⟨0, 1⟩ ⟨0, 1⟩ ⟨1, 1⟩)] []) "color" =
        some (Value.color ⟨1, 1⟩ ⟨0, 1⟩ ⟨0, 1⟩ ⟨1, 1⟩) ∧
      getp (resolve_variables
        [("color", Value.color ⟨1, 1⟩ ⟨0, 1⟩ ⟨0, 1⟩ ⟨1, 1⟩)] []) "opacity" = none :=
  ⟨(spec_c10 _ _ "color").1 _ (by decide) (by decide),
   (spec_c10 _ _ "opacity").2 (by decide)⟩

/-! ### Cascade-winner helpers -/

theorem getp_reverse_none {s : Style} {p : String} (h : getp s p = none) :
    getp s.reverse p = none := by
  rw [getp_eq_none_iff] at h ⊢
  simpa using h

theorem lookupLayers_none {p : String} :
    ∀ {ls : List Style}, (∀ M ∈ ls, getp M p = none) → lookupLayers p ls = none := by
  intro ls
  induction ls with
  | nil => intro _; rfl
  | cons M rest ih =>
    intro h
    have hM : getp M.reverse p = none := getp_reverse_none (h M (by simp))
    simp [lookupLayers, hM, Option.orElse, ih fun M' hM' => h M' (by simp [hM'])]

theorem mergeFold_getp_none {styles : List Style} {p : String}
    (h : ∀ L ∈ styles, getp L p = none) : getp (mergeFold styles) p = none := by
  rw [getp_mergeFold]
  exact lookupLayers_none fun M hM => h M (List.mem_reverse.mp hM)

/-- In a fold of `dict.update` calls the last layer binding `p` wins. -/
theorem mergeFold_last_wins {layers : List Style} {L : Style} {p : String} {v : Value}
    (hn : (L.map Prod.fst).Nodup) (hg : getp L p = some v) :
    getp (mergeFold (layers ++ [L])) p = some v := by
  rw [getp_mergeFold, List.reverse_append]
  simp [lookupLayers, getp_reverse_of_nodup hn, hg, Option.orElse]

theorem mergeFold_head_wins {layers : List Style} {L : Style} {p : String} {v : Value}
    (hn : (L.map Prod.fst).Nodup) (hg : getp L p = some v)
    (hrest : ∀ M ∈ layers, getp M p = none) :
    getp (mergeFold (L :: layers)) p = some v := by
  rw [getp_mergeFold, List.reverse_cons, lookupLayers_append]
  rw [lookupLayers_none fun M hM => hrest M (List.mem_reverse.mp hM)]
  simp [lookupLayers, getp_reverse_of_nodup hn, hg, Option.orElse]

theorem opacityPass_noop {st : Style} (h : getp st "opacity" = none) :
    opacityPass st = some st := by
  unfold opacityPass
  simp [h]

theorem fontScaleStage_keyword_unchanged {abs : Option Number} {st st' : Style}
    {fs : Value} (hg : getp st "font-size" = some fs)
    (hf : fontSizeFactorOf fs = none) (h : fontScaleStage abs st = some st') :
    getp st' "font-size" = some fs := by
  cases abs with
  | none =>
    simp only [fontScaleStage, Option.some.injEq] at h
    subst h
    exact hg
  | some q =>
    unfold fontScaleStage at h
    simp only [hg, hf, Option.some.injEq] at h
    subst h
    exact hg

theorem fontScaleStage_getp_none {abs : Option Number} {st st' : Style}
    (h : fontScaleStage abs st = some st') {p : String} (hg : getp st p = none) :
    getp st' p = none := by
  by_cases hp : p = "font-size"
  · subst hp
    cases abs with
    | none =>
      simp only [fontScaleStage, Option.some.injEq] at h
      subst h
      exact hg
    | some q =>
      unfold fontScaleStage at h
      simp [hg] at h
  · rw [fontScaleStage_getp_other h hp]
    exact hg

theorem declsOk_getp_none {d : Style} (hok : DeclsOk d) {k : String}
    (hc : isCustomProp k = false) (hk : knownProp k = false) : getp d k = none := by
  cases hg : getp d k with
  | none => rfl
  | some v =>
    have hd := hok (k, v) (getp_mem hg)
    unfold declOk at hd
    rw [hc] at hd
    simp [hk] at hd

/-- The cascade winner for a two-layer match: when the matched declaration
layers are `[dlo, dhi]`, the higher-priority layer's concrete value for `p`
survives merge, resolution and both derived-value passes (provided the
font-size and opacity rewrites do not apply to it). -/
theorem two_rule_match_winner {sheet : CompiledStyleSheet} {node : StyleNode}
    {dlo dhi : Style} {p : String} {vw : Value}
    (hsel : ∀ r ∈ sheet.selectors, DeclsOk r.declarations)
    (hmatched : matchedDecls sheet node = [dlo, dhi])
    (hnhi : (dhi.map Prod.fst).Nodup)
    (hg : getp dhi p = some vw) (hv : vw.isVar = false)
    (hfs : p = "font-size" → fontSizeFactorOf vw = none)
    (hoc : colorProp p = true →
      getp dlo "opacity" = none ∧ getp dhi "opacity" = none) :
    ∃ st, sheet.matchStyle node = some st ∧ getp st p = some vw := by
  have hA : (afterStyleOf sheet node).isSome := by
    unfold afterStyleOf
    exact merge_styles_isSome (matchedDecls_LayersOk hsel)
  rcases Option.isSome_iff_exists.mp hA with ⟨A, hAeq⟩
  have hLsOk : LayersOk (mainLayers sheet node A) := mainLayers_LayersOk hsel
  have hsome : (merge_styles (mainLayers sheet node A)).isSome :=
    merge_styles_isSome hLsOk
  unfold merge_styles at hsome
  cases hstg : fontScaleStage (scanAbs (mainLayers sheet node A))
      (resolve_variables (mergeFold (mainLayers sheet node A))
        (mainLayers sheet node A)) with
  | none =>
    rw [hstg] at hsome
    simp at hsome
  | some st1 =>
    rw [hstg] at hsome
    replace hsome : (opacityPass st1).isSome := hsome
    rcases Option.isSome_iff_exists.mp hsome with ⟨st, hpass⟩
    have hlayers : mainLayers sheet node A =
        [if A.isEmpty then [] else [("::after", Value.sub A)],
          bookkeepingLayer node, dlo] ++ [dhi] := by
      unfold mainLayers
      rw [hmatched]
      rfl
    have hmerged : getp (mergeFold (mainLayers sheet node A)) p = some vw := by
      rw [hlayers]
      exact mergeFold_last_wins hnhi hg
    have hres : getp (resolve_variables (mergeFold (mainLayers sheet node A))
        (mainLayers sheet node A)) p = some vw :=
      resolveGo_getp_concrete hmerged hv
    have hst1 : getp st1 p = some vw := by
      by_cases hp : p = "font-size"
      · subst hp
        exact fontScaleStage_keyword_unchanged hres (hfs rfl) hstg
      · rw [fontScaleStage_getp_other hstg hp]
        exact hres
    refine ⟨st, ?_, ?_⟩
    · unfold CompiledStyleSheet.matchStyle
      rw [hAeq]
      show merge_styles (mainLayers sheet node A) = some st
      unfold merge_styles
      rw [hstg]
      show opacityPass st1 = some st
      exact hpass
    · cases hcp : colorProp p with
      | false =>
        rw [opacityPass_getp_other hpass hcp]
        exact hst1
      | true =>
        have hmergedop : getp (mergeFold (mainLayers sheet node A)) "opacity" = none := by
          apply mergeFold_getp_none
          intro L hL
          rw [hlayers] at hL
          simp only [List.cons_append, List.nil_append, List.mem_cons,
            List.not_mem_nil, or_false] at hL
          rcases hL with h | h | h | h
          · subst h
            by_cases he : A.isEmpty <;> simp [he, getp]
          · subst h
            simp [bookkeepingLayer, getp]
          · subst h
            exact (hoc hcp).1
          · subst h
            exact (hoc hcp).2
        have hresop : getp (resolve_variables (mergeFold (mainLayers sheet node A))
            (mainLayers sheet node A)) "opacity" = none :=
          resolveGo_getp_none hmergedop
        have hopnone : getp st1 "opacity" = none :=
          fontScaleStage_getp_none hstg hresop
        rw [opacityPass_noop hopnone] at hpass
        have heq : st1 = st := Option.some.inj hpass
        subst heq
        exact hst1

theorem init_two_rules (pr1 pr2 : StyleNode → Bool) (s1 s2 : List Nat) (d1 d2 : Style) :
    (CompiledStyleSheet.init [⟨.ok pr1 s1, d1⟩, ⟨.ok pr2 s2, d2⟩]).selectors =
      if ruleLe ⟨s1, 0, d1, pr1⟩ ⟨s2, 1, d2, pr2⟩
      then [⟨s1, 0, d1, pr1⟩, ⟨s2, 1, d2, pr2⟩]
      else [⟨s2, 1, d2, pr2⟩, ⟨s1, 0, d1, pr1⟩] := by
  unfold CompiledStyleSheet.init okRules
  simp [List.enum, List.enumFrom, List.filterMap, List.insertionSort, List.orderedInsert]

/-- C2 (amended): for a stylesheet of two rules R1 (declared first) and R2,
both matching `node` and both setting property `p` with concrete
(non-variable-reference) values that the derived-value passes leave alone
(no relative font-size keyword when `p` is `font-size`; no opacity entry when
`p` is one of the three composited color properties): if R1 has strictly
higher specificity its value wins regardless of declaration order, and at
equal specificity the later-declared R2 wins. -/
theorem spec_c2_amended (s1 s2 : List Nat) (d1 d2 : Style)
    (pr1 pr2 : StyleNode → Bool) (node : StyleNode) (p : String) (v1 v2 : Value)
    (hok1 : DeclsOk d1) (hok2 : DeclsOk d2)
    (hn1 : (d1.map Prod.fst).Nodup) (hn2 : (d2.map Prod.fst).Nodup)
    (hg1 : getp d1 p = some v1) (hg2 : getp d2 p = some v2)
    (hp1 : pr1 node = true) (hp2 : pr2 node = true)
    (hv1 : v1.isVar = false) (hv2 : v2.isVar = false)
    (hfs1 : p = "font-size" → fontSizeFactorOf v1 = none)
    (hfs2 : p = "font-size" → fontSizeFactorOf v2 = none)
    (hoc : colorProp p = true → getp d1 "opacity" = none ∧ getp d2 "opacity" = none) :
    (specLt s2 s1 = true →
      ∃ st, (CompiledStyleSheet.init
          [⟨.ok pr1 s1, d1⟩, ⟨.ok pr2 s2, d2⟩]).matchStyle node = some st ∧
        getp st p = some v1) ∧
    (specLt s1 s2 = true →
      ∃ st, (CompiledStyleSheet.init
          [⟨.ok pr1 s1, d1⟩, ⟨.ok pr2 s2, d2⟩]).matchStyle node = some st ∧
        getp st p = some v2) ∧
    (s1 = s2 →
      ∃ st, (CompiledStyleSheet.init
          [⟨.ok pr1 s1, d1⟩, ⟨.ok pr2 s2, d2⟩]).matchStyle node = some st ∧
        getp st p = some v2) := by
  refine ⟨?_, ?_, ?_⟩
  · intro hlt
    have hle : ¬ ruleLe ⟨s1, 0, d1, pr1⟩ ⟨s2, 1, d2, pr2⟩ := by
      intro h
      rcases ruleLe_iff.mp h with h' | ⟨h', _⟩
      · rw [specLt_asymm hlt] at h'
        cases h'
      · exact specLt_ne hlt h'.symm
    have hsel_eq : (CompiledStyleSheet.init
        [⟨.ok pr1 s1, d1⟩, ⟨.ok pr2 s2, d2⟩]).selectors =
        [⟨s2, 1, d2, pr2⟩, ⟨s1, 0, d1, pr1⟩] := by
      rw [init_two_rules, if_neg hle]
    have hsel : ∀ r ∈ (CompiledStyleSheet.init
        [⟨.ok pr1 s1, d1⟩, ⟨.ok pr2 s2, d2⟩]).selectors, DeclsOk r.declarations := by
      intro r hr
      rw [hsel_eq] at hr
      rcases List.mem_cons.mp hr with h | h
      · subst h; exact hok2
      · rcases List.mem_cons.mp h with h' | h'
        · subst h'; exact hok1
        · simp at h'
    have hmatched : matchedDecls (CompiledStyleSheet.init
        [⟨.ok pr1 s1, d1⟩, ⟨.ok pr2 s2, d2⟩]) node = [d2, d1] := by
      unfold matchedDecls
      rw [hsel_eq]
      simp [hp1, hp2]
    exact two_rule_match_winner hsel hmatched hn1 hg1 hv1 hfs1
      fun hcp => ⟨(hoc hcp).2, (hoc hcp).1⟩
  · intro hlt
    have hle : ruleLe ⟨s1, 0, d1, pr1⟩ ⟨s2, 1, d2, pr2⟩ :=
      ruleLe_iff.mpr (Or.inl hlt)
    have hsel_eq : (CompiledStyleSheet.init
        [⟨.ok pr1 s1, d1⟩, ⟨.ok pr2 s2, d2⟩]).selectors =
        [⟨s1, 0, d1, pr1⟩, ⟨s2, 1, d2, pr2⟩] := by
      rw [init_two_rules, if_pos hle]
    have hsel : ∀ r ∈ (CompiledStyleSheet.init
        [⟨.ok pr1 s1, d1⟩, ⟨.ok pr2 s2, d2⟩]).selectors, DeclsOk r.declarations := by
      intro r hr
      rw [hsel_eq] at hr
      rcases List.mem_cons.mp hr with h | h
      · subst h; exact hok1
      · rcases List.mem_cons.mp h with h' | h'
        · subst h'; exact hok2
        · simp at h'
    have hmatched : matchedDecls (CompiledStyleSheet.init
        [⟨.ok pr1 s1, d1⟩, ⟨.ok pr2 s2, d2⟩]) node = [d1, d2] := by
      unfold matchedDecls
      rw [hsel_eq]
      simp [hp1, hp2]
    exact two_rule_match_winner hsel hmatched hn2 hg2 hv2 hfs2 hoc
  · intro heq
    have hle : ruleLe ⟨s1, 0, d1, pr1⟩ ⟨s2, 1, d2, pr2⟩ :=
      ruleLe_iff.mpr (Or.inr ⟨heq, Nat.zero_le 1⟩)
    have hsel_eq : (CompiledStyleSheet.init
        [⟨.ok pr1 s1, d1⟩, ⟨.ok pr2 s2, d2⟩]).selectors =
        [⟨s1, 0, d1, pr1⟩, ⟨s2, 1, d2, pr2⟩] := by
      rw [init_two_rules, if_pos hle]
    have hsel : ∀ r ∈ (CompiledStyleSheet.init
        [⟨.ok pr1 s1, d1⟩, ⟨.ok pr2 s2, d2⟩]).selectors, DeclsOk r.declarations := by
      intro r hr
      rw [hsel_eq] at hr
      rcases List.mem_cons.mp hr with h | h
      · subst h; exact hok1
      · rcases List.mem_cons.mp h with h' | h'
        · subst h'; exact hok2
        · simp at h'
    have hmatched : matchedDecls (CompiledStyleSheet.init
        [⟨.ok pr1 s1, d1⟩, ⟨.ok pr2 s2, d2⟩]) node = [d1, d2] := by
      unfold matchedDecls
      rw [hsel_eq]
      simp [hp1, hp2]
    exact two_rule_match_winner hsel hmatched hn2 hg2 hv2 hfs2 hoc

def c2CexNode : StyleNode := ⟨"node", none, none, [], []⟩

/-- Two rules, both matching, both setting `color`: R1 is declared first and
has strictly higher specificity but its value is an unresolvable variable
reference; R2 has lower specificity and a concrete red. -/
def c2CexRules : List RawRule :=
  [⟨.ok (fun _ => true) [1], [("color", .var "--missing")]⟩,
   ⟨.ok (fun _ => true) [0], [("color", .color ⟨1, 1⟩ ⟨0, 1⟩ ⟨0, 1⟩ ⟨1, 1⟩)]⟩]

/-- C2 as stated is false: the higher-specificity rule R1 sets
`color: var(--missing)`, the lower-specificity rule R2 sets a concrete red;
`match` returns R2's red, not R1's value — the variable fallback chain
deliberately overrides naive specificity precedence. -/
theorem spec_c2_cex :
    ((CompiledStyleSheet.init c2CexRules).matchStyle c2CexNode).map
        (fun st => getp st "color") =
        some (some (.color ⟨1, 1⟩ ⟨0, 1⟩ ⟨0, 1⟩ ⟨1, 1⟩)) ∧
      ((CompiledStyleSheet.init c2CexRules).matchStyle c2CexNode).map
        (fun st => getp st "color") ≠
        some (some (.var "--missing")) := by
  constructor
  · decide
  · decide

def c2WitNode : StyleNode := ⟨"node", none, none, [], []⟩

theorem spec_c2_amended_witness :
    (∃ st, (CompiledStyleSheet.init
        [⟨.ok (fun _ => true) [0, 1], [("color", Value.color ⟨1, 1⟩ ⟨0, 1⟩ ⟨0, 1⟩ ⟨1, 1⟩)]⟩,
         ⟨.ok (fun _ => true) [0, 0],
           [("color", Value.color ⟨0, 1⟩ ⟨0, 1⟩ ⟨1, 1⟩ ⟨1, 1⟩)]⟩]).matchStyle c2WitNode =
          some st ∧
        getp st "color" = some (Value.color ⟨1, 1⟩ ⟨0, 1⟩ ⟨0, 1⟩ ⟨1, 1⟩)) :=
  (spec_c2_amended [0, 1] [0, 0]
      [("color", Value.color ⟨1, 1⟩ ⟨0, 1⟩ ⟨0, 1⟩ ⟨1, 1⟩)]
      [("color", Value.color ⟨0, 1⟩ ⟨0, 1⟩ ⟨1, 1⟩ ⟨1, 1⟩)]
      (fun _ => true) (fun _ => true) c2WitNode "color"
      (Value.color ⟨1, 1⟩ ⟨0, 1⟩ ⟨0, 1⟩ ⟨1, 1⟩) (Value.color ⟨0, 1⟩ ⟨0, 1⟩ ⟨1, 1⟩ ⟨1, 1⟩)
      (by decide) (by decide) (by decide) (by decide) (by decide) (by decide)
      (by decide) (by decide) (by decide) (by decide) (by decide) (by decide)
      (by decide)).1 (by decide)

def c3CexNode : StyleNode := ⟨"node", none, none, [], []⟩

/-- One rule whose declarations form the chain of the claim:
`color: var(--a)`, `--a: var(--b)`, `--b: red`. -/
def c3CexRules : List RawRule :=
  [⟨.ok (fun _ => true) [0],
    [("color", .var "--a"), ("--a", .var "--b"),
     ("--b", .color ⟨1, 1⟩ ⟨0, 1⟩ ⟨0, 1⟩ ⟨1, 1⟩)]⟩]

/-- C3 as stated is false: for the chain `color: var(--a)`, `--a: var(--b)`,
`--b: red` the code does not recursively resolve — `declarations(p,
style[lv.name])` is itself a `Var`, the `isinstance(resolved, Var)` guard
skips it, no lower layer remains, and `color` is dropped instead of becoming
the final concrete red. -/
theorem spec_c3_cex :
    ((CompiledStyleSheet.init c3CexRules).matchStyle c3CexNode).map
        (fun st => getp st "color") = some none ∧
      ((CompiledStyleSheet.init c3CexRules).matchStyle c3CexNode).map
        (fun st => getp st "color") ≠
        some (some (.color ⟨1, 1⟩ ⟨0, 1⟩ ⟨0, 1⟩ ⟨1, 1⟩)) := by
  constructor
  · decide
  · decide

/-- C3 (amended): the fallback scan follows exactly one level of variable
reference.  When the scanned layer's value for `p` is `var(a)` and the merged
value of the custom property `a` is itself a reference `var(b)`, the layer is
skipped (the chain is not followed further) and, with no other layer to fall
back on, `p` is dropped; when the merged value of `a` is a truthy concrete
value fitting `p`'s domain, it is assigned to `p`. -/
theorem spec_c3_amended (p a b : String) (c : Value)
    (hpc : isCustomProp p = false)
    (ha : isCustomProp a = true) (hb : isCustomProp b = true)
    (hab : a ≠ b) (hpa : p ≠ a) (hpb : p ≠ b)
    (hct : c.truthy = true) (hcv : c.isVar = false) :
    getp (resolve_variables [(p, .var a), (a, .var b), (b, c)]
        [[(p, .var a), (a, .var b), (b, c)]]) p = none ∧
      (fitsConcrete p c = true →
        getp (resolve_variables [(p, .var a), (a, c)]
          [[(p, .var a), (a, c)]]) p = some c) := by
  constructor
  · have hn : (([(p, Value.var a), (a, Value.var b), (b, c)]).map Prod.fst).Nodup := by
      simp [hpa, hpb, hab]
    have hgp : getp [(p, Value.var a), (a, Value.var b), (b, c)] p = some (.var a) := by
      simp [getp]
    have hga : getp [(p, Value.var a), (a, Value.var b), (b, c)] a = some (.var b) := by
      simp [getp, hpa]
    have h1 : getp (resolve_variables [(p, Value.var a), (a, Value.var b), (b, c)]
        [[(p, Value.var a), (a, Value.var b), (b, c)]]) p =
        scanLayers [(p, Value.var a), (a, Value.var b), (b, c)] p
          [[(p, Value.var a), (a, Value.var b), (b, c)]] :=
      resolveGo_getp_var hn hgp
    rw [h1]
    have hstep : layerStep [(p, Value.var a), (a, Value.var b), (b, c)] p
        (.var a) = none := by
      unfold layerStep
      simp [Value.truthy, hga, declarations, hpc, Value.isVar]
    simp [scanLayers, hgp, hstep]
  · intro hcf
    have hn : (([(p, Value.var a), (a, c)]).map Prod.fst).Nodup := by
      simp [hpa]
    have hgp : getp [(p, Value.var a), (a, c)] p = some (.var a) := by
      simp [getp]
    have hga : getp [(p, Value.var a), (a, c)] a = some c := by
      simp [getp, hpa]
    have h1 : getp (resolve_variables [(p, Value.var a), (a, c)]
        [[(p, Value.var a), (a, c)]]) p =
        scanLayers [(p, Value.var a), (a, c)] p [[(p, Value.var a), (a, c)]] :=
      resolveGo_getp_var hn hgp
    rw [h1]
    have hstep : layerStep [(p, Value.var a), (a, c)] p (.var a) = some c := by
      unfold layerStep
      simp [show (Value.var a).truthy = true from rfl, hga, declarations, hpc, hcv,
        hcf, hct]
    simp [scanLayers, hgp, hstep]

theorem spec_c3_amended_witness :
    getp (resolve_variables [("color", Value.var "--a"), ("--a", Value.var "--b"),
        ("--b", Value.color ⟨1, 1⟩ ⟨0, 1⟩ ⟨0, 1⟩ ⟨1, 1⟩)]
        [[("color", Value.var "--a"), ("--a", Value.var "--b"),
          ("--b", Value.color ⟨1, 1⟩ ⟨0, 1⟩ ⟨0, 1⟩ ⟨1, 1⟩)]]) "color" = none ∧
      getp (resolve_variables [("color", Value.var "--a"),
          ("--a", Value.color ⟨1, 1⟩ ⟨0, 1⟩ ⟨0, 1⟩ ⟨1, 1⟩)]
        [[("color", Value.var "--a"),
          ("--a", Value.color ⟨1, 1⟩ ⟨0, 1⟩ ⟨0, 1⟩ ⟨1, 1⟩)]]) "color" =
        some (Value.color ⟨1, 1⟩ ⟨0, 1⟩ ⟨0, 1⟩ ⟨1, 1⟩) :=
  ⟨(spec_c3_amended "color" "--a" "--b" (Value.color ⟨1, 1⟩ ⟨0, 1⟩ ⟨0, 1⟩ ⟨1, 1⟩)
      (by decide) (by decide) (by decide) (by decide) (by decide) (by decide)
      (by decide) (by decide)).1,
   (spec_c3_amended "color" "--a" "--b" (Value.color ⟨1, 1⟩ ⟨0, 1⟩ ⟨0, 1⟩ ⟨1, 1⟩)
      (by decide) (by decide) (by decide) (by decide) (by decide) (by decide)
      (by decide) (by decide)).2 (by decide)⟩

/-! ### No variable reference survives the pipeline -/

theorem scanLayers_none {style : Style} {p : String} :
    ∀ {ls : List Style},
      (∀ L ∈ ls, ∀ lv, getp L p = some lv → layerStep style p lv = none) →
      scanLayers style p ls = none := by
  intro ls
  induction ls with
  | nil => intro _; rfl
  | cons L rest ih =>
    intro h
    cases hg : getp L p with
    | none => simp [scanLayers, hg, ih fun M hM => h M (by simp [hM])]
    | some lv =>
      have hstep := h L (by simp) lv hg
      simp [scanLayers, hg, hstep, ih fun M hM => h M (by simp [hM])]

theorem fontScaleStage_no_var {abs : Option Number} {st st' : Style}
    (h : fontScaleStage abs st = some st')
    (hst : ∀ p v, getp st p = some v → v.isVar = false) :
    ∀ p v, getp st' p = some v → v.isVar = false := by
  intro p v hv
  by_cases hp : p = "font-size"
  · subst hp
    cases abs with
    | none =>
      simp only [fontScaleStage, Option.some.injEq] at h
      subst h
      exact hst _ _ hv
    | some q =>
      unfold fontScaleStage at h
      cases hfs : getp st "font-size" with
      | none => simp [hfs] at h
      | some fs =>
        simp only [hfs] at h
        cases hr : fontSizeFactorOf fs with
        | some ratio =>
          simp only [hr, Option.some.injEq] at h
          subst h
          rw [getp_updKey, if_pos rfl] at hv
          cases hv
          rfl
        | none =>
          simp only [hr, Option.some.injEq] at h
          subst h
          exact hst _ _ hv
  · rw [fontScaleStage_getp_other h hp] at hv
    exact hst _ _ hv

theorem applyOpacity_no_var {op : Value} {st st' : Style} {cp : String}
    (h : applyOpacity op st cp = some st')
    (hst : ∀ p v, getp st p = some v → v.isVar = false) :
    ∀ p v, getp st' p = some v → v.isVar = false := by
  intro p v hv
  by_cases hp : p = cp
  · subst hp
    unfold applyOpacity at h
    cases hg : getp st p with
    | none =>
      simp only [hg, Option.some.injEq] at h
      subst h
      exact hst _ _ hv
    | some w =>
      simp only [hg] at h
      cases w with
      | color r g b a =>
        replace h : (if a.isPos then opacityMulValue op r g b a st p
            else some st) = some st' := h
        cases ha : a.isPos with
        | true =>
          rw [ha] at h
          simp only [if_true] at h
          cases op with
          | num q =>
            simp only [opacityMulValue, Option.some.injEq] at h
            subst h
            rw [getp_updKey, if_pos rfl] at hv
            cases hv
            rfl
          | color r' g' b' a' => simp [opacityMulValue] at h
          | str s => simp [opacityMulValue] at h
          | seq l => simp [opacityMulValue] at h
          | var y => simp [opacityMulValue] at h
          | sub d => simp [opacityMulValue] at h
          | nodeRef n => simp [opacityMulValue] at h
          | sheetRef => simp [opacityMulValue] at h
        | false =>
          rw [ha] at h
          simp only [Bool.false_eq_true, if_false, Option.some.injEq] at h
          subst h
          exact hst _ _ hv
      | num q =>
        by_cases ht : Value.truthy (.num q) <;> simp [ht] at h
        subst h
        exact hst _ _ hv
      | str s =>
        by_cases ht : Value.truthy (.str s) <;> simp [ht] at h
        subst h
        exact hst _ _ hv
      | seq l =>
        by_cases ht : Value.truthy (.seq l) <;> simp [ht] at h
        subst h
        exact hst _ _ hv
      | var y =>
        by_cases ht : Value.truthy (.var y) <;> simp [ht] at h
        subst h
        exact hst _ _ hv
      | sub d =>
        by_cases ht : Value.truthy (.sub d) <;> simp [ht] at h
        subst h
        exact hst _ _ hv
      | nodeRef n =>
        by_cases ht : Value.truthy (.nodeRef n) <;> simp [ht] at h
        subst h
        exact hst _ _ hv
      | sheetRef =>
        by_cases ht : Value.truthy Value.sheetRef <;> simp [ht] at h
        subst h
        exact hst _ _ hv
  · rw [applyOpacity_getp_other h hp] at hv
    exact hst _ _ hv

theorem opacityPass_no_var {st st' : Style} (h : opacityPass st = some st')
    (hst : ∀ p v, getp st p = some v → v.isVar = false) :
    ∀ p v, getp st' p = some v → v.isVar = false := by
  unfold opacityPass at h
  cases ho : getp st "opacity" with
  | none =>
    simp only [ho, Option.some.injEq] at h
    subst h
    exact hst
  | some op =>
    simp only [ho, Option.bind_eq_bind] at h
    rcases Option.bind_eq_some.mp h with ⟨s1, hs1, h⟩
    rcases Option.bind_eq_some.mp h with ⟨s2, hs2, hs3⟩
    exact applyOpacity_no_var hs3 (applyOpacity_no_var hs2 (applyOpacity_no_var hs1 hst))

/-- No variable reference survives `merge_styles`: kept values are concrete,
scan results are checked concrete, and the two derived-value passes write
only numbers and colors. -/
theorem merge_styles_no_var {styles : List Style} {st : Style}
    (h : merge_styles styles = some st) :
    ∀ p v, getp st p = some v → v.isVar = false := by
  unfold merge_styles at h
  rcases Option.bind_eq_some.mp h with ⟨st1, h1, h2⟩
  exact opacityPass_no_var h2
    (fontScaleStage_no_var h1 fun p v hv => resolveGo_no_var hv)

/-- C4: if the merged value of property `p` is a variable reference and no
layer of the fallback chain yields a concrete value for it (each layer that
binds `p` yields nothing — in particular when no layer defines the
referenced custom property), then `p` is entirely absent from the `Style`
returned by `match`; moreover no variable-reference value ever appears in
that result. -/
theorem spec_c4 (compiled : List RawRule) (node : StyleNode) (x : String)
    (hok : RulesOk compiled) (p : String) (A : Style)
    (hA : afterStyleOf (CompiledStyleSheet.init compiled) node = some A)
    (hmerged : getp (mergeFold
        (mainLayers (CompiledStyleSheet.init compiled) node A)) p = some (.var x))
    (hfail : ∀ L ∈ mainLayers (CompiledStyleSheet.init compiled) node A, ∀ lv,
        getp L p = some lv →
        layerStep (mergeFold (mainLayers (CompiledStyleSheet.init compiled) node A))
          p lv = none) :
    ∃ st, (CompiledStyleSheet.init compiled).matchStyle node = some st ∧
      getp st p = none ∧
      ∀ q v, getp st q = some v → v.isVar = false := by
  have hdecls := init_declsOk hok
  have hsome : (merge_styles
      (mainLayers (CompiledStyleSheet.init compiled) node A)).isSome :=
    merge_styles_isSome (mainLayers_LayersOk hdecls)
  rcases Option.isSome_iff_exists.mp hsome with ⟨st, hst⟩
  refine ⟨st, ?_, ?_, merge_styles_no_var hst⟩
  · unfold CompiledStyleSheet.matchStyle
    rw [hA]
    exact hst
  · have hscan : scanLayers
        (mergeFold (mainLayers (CompiledStyleSheet.init compiled) node A)) p
        (mainLayers (CompiledStyleSheet.init compiled) node A).reverse = none :=
      scanLayers_none fun L hL lv hg => hfail L (List.mem_reverse.mp hL) lv hg
    have hres : getp (resolve_variables
        (mergeFold (mainLayers (CompiledStyleSheet.init compiled) node A))
        (mainLayers (CompiledStyleSheet.init compiled) node A)) p = none := by
      calc getp (resolve_variables
            (mergeFold (mainLayers (CompiledStyleSheet.init compiled) node A))
            (mainLayers (CompiledStyleSheet.init compiled) node A)) p
          = scanLayers
              (mergeFold (mainLayers (CompiledStyleSheet.init compiled) node A)) p
              (mainLayers (CompiledStyleSheet.init compiled) node A).reverse :=
            resolveGo_getp_var
              (mergeFold_keys_nodup
                (mainLayers (CompiledStyleSheet.init compiled) node A)) hmerged
        _ = none := hscan
    unfold merge_styles at hst
    rcases Option.bind_eq_some.mp hst with ⟨st1, h1, h2⟩
    exact opacityPass_getp_none h2 (fontScaleStage_getp_none h1 hres)

def c4Rules : List RawRule :=
  [⟨.ok (fun _ => true) [0], [("color", .var "--missing")]⟩]

def c4Node : StyleNode := ⟨"node", none, none, [], []⟩

theorem spec_c4_witness :
    ∃ st, (CompiledStyleSheet.init c4Rules).matchStyle c4Node = some st ∧
      getp st "color" = none ∧ ∀ q v, getp st q = some v → v.isVar = false := by
  apply spec_c4 c4Rules c4Node "--missing" (by decide) "color" []
  · decide
  · decide
  · intro L hL lv hg
    have hmain : mainLayers (CompiledStyleSheet.init c4Rules) c4Node [] =
        [[], bookkeepingLayer c4Node, [("color", Value.var "--missing")]] := by decide
    rw [hmain] at hL
    rcases List.mem_cons.mp hL with h | h
    · subst h
      simp [getp] at hg
    · rcases List.mem_cons.mp h with h' | h'
      · subst h'
        simp [bookkeepingLayer, getp] at hg
      · rcases List.mem_cons.mp h' with h'' | h''
        · subst h''
          simp [getp] at hg
          subst hg
          decide
        · simp at h''

/-! ### Absolute font-size tracking -/

theorem scanAbsStep_keep {acc : Option Number} {M : Style}
    (h : ∀ q', getp M "font-size" = some (.num q') → q'.nonzero = false) :
    scanAbsStep acc M = acc := by
  unfold scanAbsStep
  cases hg : getp M "font-size" with
  | none => simp [hg]
  | some v =>
    cases v with
    | num q' => simp [hg, h q' hg]
    | color r g b a => simp [hg]
    | str s => simp [hg]
    | seq l => simp [hg]
    | var y => simp [hg]
    | sub d => simp [hg]
    | nodeRef n => simp [hg]
    | sheetRef => simp [hg]

theorem scanAbs_foldl_keep {ls : List Style}
    (h : ∀ M ∈ ls, ∀ q', getp M "font-size" = some (.num q') → q'.nonzero = false) :
    ∀ acc, ls.foldl scanAbsStep acc = acc := by
  induction ls with
  | nil => intro acc; rfl
  | cons M rest ih =>
    intro acc
    simp only [List.foldl_cons]
    rw [scanAbsStep_keep (h M (by simp))]
    exact ih (fun M' hM' => h M' (by simp [hM'])) acc

/-- The tracked absolute font-size is the one of the most recent (highest
priority) layer holding a truthy numeric font-size. -/
theorem scanAbs_eq_last {pre post : List Style} {L : Style} {q : Number}
    (hg : getp L "font-size" = some (.num q)) (hnz : q.nonzero = true)
    (hpost : ∀ M ∈ post, ∀ q',
      getp M "font-size" = some (.num q') → q'.nonzero = false) :
    scanAbs (pre ++ L :: post) = some q := by
  unfold scanAbs
  rw [List.foldl_append]
  simp only [List.foldl_cons]
  rw [show scanAbsStep (pre.foldl scanAbsStep none) L = some q by
    unfold scanAbsStep
    simp [hg, hnz]]
  exact scanAbs_foldl_keep hpost (some q)

theorem scanAbs_none {styles : List Style}
    (h : ∀ M ∈ styles, ∀ q',
      getp M "font-size" = some (.num q') → q'.nonzero = false) :
    scanAbs styles = none :=
  scanAbs_foldl_keep h none

/-- C6: if after merge and variable resolution the font-size is a string
keyword, then: when some layer defined an absolute (truthy numeric)
font-size — the most recently seen such value being `q` — and the keyword
maps to ratio `r`, the final font-size is `q * r`; when no layer defined an
absolute font-size, the keyword is returned unchanged. -/
theorem spec_c6 (styles : List Style) (hok : LayersOk styles) (k : String)
    (hfs : getp (resolve_variables (mergeFold styles) styles) "font-size" =
      some (.str k)) :
    (∀ pre L post q r, styles = pre ++ L :: post →
        getp L "font-size" = some (.num q) → q.nonzero = true →
        (∀ M ∈ post, ∀ q',
          getp M "font-size" = some (.num q') → q'.nonzero = false) →
        fontSizeFactorOf (.str k) = some r →
        ∃ st, merge_styles styles = some st ∧
          getp st "font-size" = some (.num (q.mul r))) ∧
      ((∀ M ∈ styles, ∀ q',
          getp M "font-size" = some (.num q') → q'.nonzero = false) →
        ∃ st, merge_styles styles = some st ∧
          getp st "font-size" = some (.str k)) := by
  constructor
  · intro pre L post q r hsplit hgL hnz hpost hr
    have habs : scanAbs styles = some q := by
      rw [hsplit]
      exact scanAbs_eq_last hgL hnz hpost
    have hstage : fontScaleStage (scanAbs styles)
        (resolve_variables (mergeFold styles) styles) =
        some (updKey (resolve_variables (mergeFold styles) styles) "font-size"
          (.num (q.mul r))) := by
      rw [habs]
      unfold fontScaleStage
      simp [hfs, hr]
    have hop : (opacityPass (updKey (resolve_variables (mergeFold styles) styles)
        "font-size" (.num (q.mul r)))).isSome := by
      apply opacityPass_isSome
      · intro v hv
        rw [getp_updKey, if_neg (by decide)] at hv
        exact resolved_opacity_isNum hok hv
      · intro cp hcp v hv
        have hne : ¬("font-size" = cp) := by
          rcases colorProp_cases hcp with h' | h' | h' <;> subst h' <;> decide
        rw [getp_updKey, if_neg hne] at hv
        exact resolved_colorProp_isColor hok hcp hv
    rcases Option.isSome_iff_exists.mp hop with ⟨st, hpass⟩
    refine ⟨st, ?_, ?_⟩
    · unfold merge_styles
      rw [hstage]
      show opacityPass _ = some st
      exact hpass
    · rw [opacityPass_getp_other hpass (by decide), getp_updKey, if_pos rfl]
  · intro hnone
    have habs : scanAbs styles = none := scanAbs_none hnone
    have hstage : fontScaleStage (scanAbs styles)
        (resolve_variables (mergeFold styles) styles) =
        some (resolve_variables (mergeFold styles) styles) := by
      rw [habs]
      rfl
    have hop : (opacityPass (resolve_variables (mergeFold styles) styles)).isSome := by
      apply opacityPass_isSome
      · intro v hv
        exact resolved_opacity_isNum hok hv
      · intro cp hcp v hv
        exact resolved_colorProp_isColor hok hcp hv
    rcases Option.isSome_iff_exists.mp hop with ⟨st, hpass⟩
    refine ⟨st, ?_, ?_⟩
    · unfold merge_styles
      rw [hstage]
      show opacityPass _ = some st
      exact hpass
    · rw [opacityPass_getp_other hpass (by decide)]
      exact hfs

theorem spec_c6_witness :
    ∃ st, merge_styles [[("font-size", Value.num ⟨10, 1⟩)],
        [("font-size", Value.str "large")]] = some st ∧
      getp st "font-size" = some (Value.num (Number.mul ⟨10, 1⟩ ⟨6, 5⟩)) :=
  (spec_c6 [[("font-size", Value.num ⟨10, 1⟩)], [("font-size", Value.str "large")]]
      (by decide) "large" (by decide)).1
    [] [("font-size", Value.num ⟨10, 1⟩)] [[("font-size", Value.str "large")]]
    ⟨10, 1⟩ ⟨6, 5⟩ rfl (by decide) (by decide)
    (by
      intro M hM q' hq'
      rcases List.mem_singleton.mp hM with h
      subst h
      simp [getp] at hq')
    (by decide)

/-- C7: when the style entering the opacity pass (after merge, resolution
and font-size scaling) contains a numeric opacity, the final style keeps
that opacity, each of `color`, `background-color` and `text-color` holding a
color has its alpha multiplied by the opacity exactly when strictly positive
(an alpha of 0 is left unchanged by every opacity value), and every property
outside those three is unaffected by the pass. -/
theorem spec_c7 (styles : List Style) (hok : LayersOk styles) (q : Number)
    (sc : Style)
    (hsc : fontScaleStage (scanAbs styles)
        (resolve_variables (mergeFold styles) styles) = some sc)
    (ho : getp sc "opacity" = some (.num q)) :
    ∃ st, merge_styles styles = some st ∧
      getp st "opacity" = some (.num q) ∧
      (∀ cp, colorProp cp = true → ∀ r g b a, getp sc cp = some (.color r g b a) →
        getp st cp = some (.color r g b (if a.isPos then a.mul q else a))) ∧
      (∀ p', colorProp p' = false → getp st p' = getp sc p') := by
  have hop : (opacityPass sc).isSome := by
    apply opacityPass_isSome
    · intro v hv
      rw [ho] at hv
      cases hv
      rfl
    · intro cp hcp v hv
      have hne : cp ≠ "font-size" := by
        rcases colorProp_cases hcp with h' | h' | h' <;> subst h' <;> decide
      rw [fontScaleStage_getp_other hsc hne] at hv
      exact resolved_colorProp_isColor hok hcp hv
  rcases Option.isSome_iff_exists.mp hop with ⟨st, hpass⟩
  refine ⟨st, ?_, ?_, ?_, ?_⟩
  · unfold merge_styles
    rw [hsc]
    show opacityPass sc = some st
    exact hpass
  · rw [opacityPass_getp_other hpass (by decide)]
    exact ho
  · intro cp hcp r g b a hcol
    exact opacityPass_colorProp ho hpass hcp hcol
  · intro p' hp'
    exact opacityPass_getp_other hpass hp'

theorem spec_c7_witness :
    ∃ st, merge_styles [[("opacity", Value.num ⟨1, 2⟩),
        ("color", Value.color ⟨1, 1⟩ ⟨0, 1⟩ ⟨0, 1⟩ ⟨1, 1⟩),
        ("text-color", Value.color ⟨0, 1⟩ ⟨1, 1⟩ ⟨0, 1⟩ ⟨0, 1⟩)]] = some st ∧
      getp st "opacity" = some (Value.num ⟨1, 2⟩) ∧
      (∀ cp, colorProp cp = true → ∀ r g b a,
        getp [("opacity", Value.num ⟨1, 2⟩),
          ("color", Value.color ⟨1, 1⟩ ⟨0, 1⟩ ⟨0, 1⟩ ⟨1, 1⟩),
          ("text-color", Value.color ⟨0, 1⟩ ⟨1, 1⟩ ⟨0, 1⟩ ⟨0, 1⟩)] cp =
            some (Value.color r g b a) →
        getp st cp =
          some (Value.color r g b (if a.isPos then Number.mul a ⟨1, 2⟩ else a))) ∧
      (∀ p', colorProp p' = false →
        getp st p' = getp [("opacity", Value.num ⟨1, 2⟩),
          ("color", Value.color ⟨1, 1⟩ ⟨0, 1⟩ ⟨0, 1⟩ ⟨1, 1⟩),
          ("text-color", Value.color ⟨0, 1⟩ ⟨1, 1⟩ ⟨0, 1⟩ ⟨0, 1⟩)] p') :=
  spec_c7 [[("opacity", Value.num ⟨1, 2⟩),
      ("color", Value.color ⟨1, 1⟩ ⟨0, 1⟩ ⟨0, 1⟩ ⟨1, 1⟩),
      ("text-color", Value.color ⟨0, 1⟩ ⟨1, 1⟩ ⟨0, 1⟩ ⟨0, 1⟩)]]
    (by decide) ⟨1, 2⟩
    [("opacity", Value.num ⟨1, 2⟩),
      ("color", Value.color ⟨1, 1⟩ ⟨0, 1⟩ ⟨0, 1⟩ ⟨1, 1⟩),
      ("text-color", Value.color ⟨0, 1⟩ ⟨1, 1⟩ ⟨0, 1⟩ ⟨0, 1⟩)]
    (by decide) (by decide)

theorem declOk_key_not_reserved {p : String} {v : Value} (h : declOk p v = true) :
    p ≠ "::after" ∧ p ≠ "-gaphor-style-node" ∧ p ≠ "-gaphor-compiled-style-sheet" := by
  unfold declOk at h
  by_cases hc : isCustomProp p = true
  · refine ⟨?_, ?_, ?_⟩ <;> intro he <;> rw [he] at hc <;> exact absurd hc (by decide)
  · replace hc : isCustomProp p = false := by simpa using hc
    rw [hc] at h
    simp only [Bool.false_eq_true, if_false] at h
    have hk := Bool.and_elim_left h
    refine ⟨?_, ?_, ?_⟩ <;> intro he <;> rw [he] at hk <;> exact absurd hk (by decide)

/-- C8: a rule matching only the "after" pseudo-element view of a node (its
predicate is false on the node itself) contributes none of its declarations
to the node's own top-level properties — a property `p` it declares that no
node-matching rule declares is absent from the result — and the reserved
`::after` key holds the merged after-sub-style exactly when that sub-style
is non-empty. -/
theorem spec_c8 (compiled : List RawRule) (node : StyleNode)
    (hok : RulesOk compiled) (R : Rule)
    (hR : R ∈ (CompiledStyleSheet.init compiled).selectors)
    (hRn : R.pred node = false)
    (hRa : R.pred (PseudoStyleNode node "after") = true)
    (p : String) (v : Value) (hdecl : getp R.declarations p = some v)
    (hother : ∀ R' ∈ (CompiledStyleSheet.init compiled).selectors,
        R'.pred node = true → getp R'.declarations p = none) :
    ∃ st A, (CompiledStyleSheet.init compiled).matchStyle node = some st ∧
      afterStyleOf (CompiledStyleSheet.init compiled) node = some A ∧
      getp st p = none ∧
      getp st "::after" = (if A.isEmpty then none else some (.sub A)) := by
  have hdecls := init_declsOk hok
  have hpres := declOk_key_not_reserved (hdecls R hR (p, v) (getp_mem hdecl))
  have hafter : (afterStyleOf (CompiledStyleSheet.init compiled) node).isSome := by
    unfold afterStyleOf
    exact merge_styles_isSome (matchedDecls_LayersOk hdecls)
  rcases Option.isSome_iff_exists.mp hafter with ⟨A, hA⟩
  have hsome : (merge_styles
      (mainLayers (CompiledStyleSheet.init compiled) node A)).isSome :=
    merge_styles_isSome (mainLayers_LayersOk hdecls)
  rcases Option.isSome_iff_exists.mp hsome with ⟨st, hst⟩
  have hst' := hst
  unfold merge_styles at hst'
  rcases Option.bind_eq_some.mp hst' with ⟨st1, h1, h2⟩
  have hmatched_p : ∀ L ∈ matchedDecls (CompiledStyleSheet.init compiled) node,
      getp L p = none := by
    intro L hL
    unfold matchedDecls at hL
    rcases List.mem_filterMap.mp hL with ⟨R', hR', hmap⟩
    by_cases hpR : R'.pred node = true
    · simp only [hpR, if_true, Option.some.injEq] at hmap
      subst hmap
      exact hother R' hR' hpR
    · simp [hpR] at hmap
  have hmatched_after : ∀ L ∈ matchedDecls (CompiledStyleSheet.init compiled) node,
      getp L "::after" = none := by
    intro L hL
    unfold matchedDecls at hL
    rcases List.mem_filterMap.mp hL with ⟨R', hR', hmap⟩
    by_cases hpR : R'.pred node = true
    · simp only [hpR, if_true, Option.some.injEq] at hmap
      subst hmap
      exact declsOk_getp_none (hdecls R' hR') (by decide) (by decide)
    · simp [hpR] at hmap
  refine ⟨st, A, ?_, hA, ?_, ?_⟩
  · unfold CompiledStyleSheet.matchStyle
    rw [hA]
    exact hst
  · have hmerged : getp (mergeFold
        (mainLayers (CompiledStyleSheet.init compiled) node A)) p = none := by
      apply mergeFold_getp_none
      intro L hL
      unfold mainLayers at hL
      rcases List.mem_cons.mp hL with h | h
      · subst h
        by_cases he : A.isEmpty <;> simp [he, getp, Ne.symm hpres.1]
      · rcases List.mem_cons.mp h with h' | h'
        · subst h'
          simp [bookkeepingLayer, getp, Ne.symm hpres.2.1, Ne.symm hpres.2.2]
        · exact hmatched_p L h'
    exact opacityPass_getp_none h2
      (fontScaleStage_getp_none h1 (resolveGo_getp_none hmerged))
  · cases he : A.isEmpty with
    | true =>
      have hmerged : getp (mergeFold
          (mainLayers (CompiledStyleSheet.init compiled) node A)) "::after" = none := by
        apply mergeFold_getp_none
        intro L hL
        unfold mainLayers at hL
        rcases List.mem_cons.mp hL with h | h
        · subst h
          simp [he, getp]
        · rcases List.mem_cons.mp h with h' | h'
          · subst h'
            simp [bookkeepingLayer, getp]
          · exact hmatched_after L h'
      simp only [if_true]
      exact opacityPass_getp_none h2
        (fontScaleStage_getp_none h1 (resolveGo_getp_none hmerged))
    | false =>
      have hmerged : getp (mergeFold
          (mainLayers (CompiledStyleSheet.init compiled) node A)) "::after" =
          some (.sub A) := by
        have hmain : mainLayers (CompiledStyleSheet.init compiled) node A =
            [("::after", Value.sub A)] ::
              bookkeepingLayer node ::
                matchedDecls (CompiledStyleSheet.init compiled) node := by
          unfold mainLayers
          rw [he]
          rfl
        rw [hmain]
        apply mergeFold_head_wins (by simp) (by simp [getp])
        intro M hM
        rcases List.mem_cons.mp hM with h' | h'
        · subst h'
          simp [bookkeepingLayer, getp]
        · exact hmatched_after M h'
      have hres : getp (resolve_variables
          (mergeFold (mainLayers (CompiledStyleSheet.init compiled) node A))
          (mainLayers (CompiledStyleSheet.init compiled) node A)) "::after" =
          some (.sub A) :=
        resolveGo_getp_concrete hmerged rfl
      simp only [Bool.false_eq_true, if_false]
      rw [opacityPass_getp_other h2 (by decide),
        fontScaleStage_getp_other h1 (by decide)]
      exact hres

def c8Node : StyleNode := ⟨"node", none, none, [], []⟩

/-- A predicate matching only the "after" pseudo-element view. -/
def c8Pred : StyleNode → Bool := fun n => n.pseudo == some "after"

def c8Rules : List RawRule :=
  [⟨.ok c8Pred [0], [("content", .str "x")]⟩]

def c8Rule : Rule := ⟨[0], 0, [("content", .str "x")], c8Pred⟩

theorem spec_c8_witness :
    ∃ st A, (CompiledStyleSheet.init c8Rules).matchStyle c8Node = some st ∧
      afterStyleOf (CompiledStyleSheet.init c8Rules) c8Node = some A ∧
      getp st "content" = none ∧
      getp st "::after" = (if A.isEmpty then none else some (.sub A)) := by
  refine spec_c8 c8Rules c8Node (by decide) c8Rule ?_ (by decide) (by decide)
    "content" (.str "x") (by decide) ?_
  · have hsel : (CompiledStyleSheet.init c8Rules).selectors = [c8Rule] := rfl
    rw [hsel]
    exact List.mem_cons_self _ _
  · intro R' hR' hpred
    have hsel : (CompiledStyleSheet.init c8Rules).selectors = [c8Rule] := rfl
    rw [hsel] at hR'
    have h := List.mem_singleton.mp hR'
    subst h
    rw [show c8Rule.pred c8Node = false from by decide] at hpred
    cases hpred
